import Mathlib

/-!
# Verification of the `to-use` lazy hierarchical key/value resolution engine

This file gives a shallow embedding of the core of the `to-use` dependency
injection container (the `newCtx` state machine, registries with parent
links, the ambient execution context, and the default resolution policy),
transcribed from the current source (`cjs/to-use.js`, the package main,
whose TypeScript source is the unnamed module; the older `use-this.ts`
variant differs only where noted in the development).

Keys and values are modelled as natural numbers; JavaScript object identity
is modelled by explicit allocation numbers drawn from a counter, so that
"identical (by `===`)" becomes equality of the allocation id.  Factory
bodies are a small deep-embedded command language (`FCode`), since factories
are arbitrary user callbacks that re-enter the interpreter.  The interpreter
is fuel-indexed; `none` means the fuel ran out (all theorems either supply
hypotheses about complete runs or use concrete fuel).

Ghost fields (`facRuns`, `valRuns`) count factory executions and smart
sharing validation passes; they let theorems assert "the factory was not
invoked again" / "no dependency validation was performed".
-/

namespace ToUse

/-- Keys are opaque identifiers compared by identity; model them as naturals. -/
abbrev Key := Nat

/-- The per-key state, from `const enum State` in the source:
`wasRead = 0, hasValue, hasFactory, hasError, isCreating`.
`wasRead` is the unique "falsy" state (the source tests `!entry.s`). -/
inductive EState where
  | wasRead
  | hasValue
  | hasFactory
  | hasError
  | isCreating
deriving DecidableEq, Repr

mutual

/-- A runtime value, factory object, or error object, as stored in `entry.v`.
Values carry their identity as a natural number. -/
inductive Dyn where
  | val (n : Nat)
  | fac (f : Factory)
  | err (e : Err)

/-- A factory object: either a user-registered callback (with an object
identity `fid` and a deep-embedded body) or the library's `defaultLookup`. -/
inductive Factory where
  | user (fid : Nat) (code : FCode)
  | defaultL

/-- Deep embedding of factory bodies.  `useG` is the global `use(key)`
(lookup in the ambient context), `useC c k` an explicit call of the context
handle `c`, `fresh` an allocation (`new`), `fail` a `throw new Error`,
`var i` the result of the i-th previous step of the enclosing `seq` chain
(de Bruijn style, most recent first), and `seq a b` runs `a`, pushes its
result onto the local environment, then runs `b`. -/
inductive FCode where
  | pure (d : Dyn)
  | var (i : Nat)
  | fresh
  | fail (n : Nat)
  | useG (k : Key)
  | useC (c : Nat) (k : Key)
  | seq (a : FCode) (b : FCode)

/-- An error object: an allocation identity plus a structured message. -/
inductive Err where
  | mk (eid : Nat) (tag : ETag)

/-- The kinds of errors the engine raises:  the cycle error
(`Factory ... didn't resolve ...`, naming the current payload and the key),
the `Already read` usage error, the default policy's `No config` error, the
`No current context` error, and errors thrown by user factory code. -/
inductive ETag where
  | cyc (v : Dyn) (k : Key)
  | alreadyRead (k : Key)
  | noConfig (k : Key)
  | noCtx
  | user (n : Nat)

end

/-- Allocation id of an error object. -/
def Err.eid : Err → Nat
  | .mk i _ => i

/-- Structured message of an error object. -/
def Err.tag : Err → ETag
  | .mk _ t => t

/-- Factory identity, mirroring `===` on function objects. -/
def facEq : Factory → Factory → Bool
  | .defaultL, .defaultL => true
  | .user i _, .user j _ => i = j
  | _, _ => false

/-- JavaScript `===` on modelled runtime values. -/
def dEq : Dyn → Dyn → Bool
  | .val a, .val b => a = b
  | .fac f, .fac g => facEq f g
  | .err a, .err b => a.eid = b.eid
  | _, _ => false

/-- A dependency record `{c, k, f}`: origin context, keys read (in order),
and the factory that produced the value. -/
structure Deps where
  c : Nat
  k : List Key
  f : Factory

/-- An entry `{s, v, d}`: state, payload, optional dependency record. -/
structure Entry where
  s : EState
  v : Dyn
  d : Option Deps

/-- A registry: a key-to-entry map plus an optional parent link. -/
structure Reg where
  prev : Option Nat
  map : Key → Option Entry

/-- Static per-key information consumed by `defaultLookup`: an optional
`[use.me]` recipe and whether the key is recognised as a constructible
class. -/
structure KeyInfo where
  recipe : Option FCode
  classlike : Bool

/-- The whole machine state: the registries (indexed by context id, the
global defaults registry at index 0 with `prev = none`), the ambient
context `ctx`, the active dependency log `used`, the allocation counter,
the fixed key metadata, and two ghost event counters. -/
structure World where
  regs : List Reg
  ctx : Option Nat
  used : Option (List Key)
  counter : Nat
  env : Key → KeyInfo
  facRuns : Nat
  valRuns : Nat

/-- Registry of context `c`. -/
def getReg (w : World) (c : Nat) : Option Reg := w.regs[c]?

/-- Local lookup (no parent walk): `registry.get(key)`. -/
def lookupE (w : World) (c : Nat) (k : Key) : Option Entry :=
  match getReg w c with
  | some r => r.map k
  | none => none

/-- Store `e` as the local entry for `k` in context `c`
(`registry.set(key, entry)` and all later field assignments on the aliased
entry object). -/
def updE (w : World) (c : Nat) (k : Key) (e : Entry) : World :=
  match getReg w c with
  | some r =>
      { w with regs := w.regs.set c { r with map := fun k' => if k' = k then some e else r.map k' } }
  | none => w

/-- Advance the allocation counter (a `new` expression ran). -/
def bump (w : World) : World := { w with counter := w.counter + 1 }

/-- Allocate an error object with the given message. -/
def mkErr (w : World) (t : ETag) : Err := .mk w.counter t

/-- `used.push(key)` when a dependency log is active. -/
def pushUsed (w : World) (k : Key) : World :=
  match w.used with
  | some l => { w with used := some (l ++ [k]) }
  | none => w

/-- The ancestor walk `for(let r = registry.prev; r; r = r.prev)`:
find the nearest ancestor entry for `k`, walking `prev` links
(bounded by a fuel, in practice the number of registries). -/
def findInh (w : World) (k : Key) : Nat → Option Nat → Option Entry
  | 0, _ => none
  | _, none => none
  | fuel + 1, some r =>
      match getReg w r with
      | none => none
      | some reg =>
          match reg.map k with
          | some e => some e
          | none => findInh w k fuel reg.prev

/-- `{...entry, s: entry.s || State.hasValue}`: copy an inherited entry,
downgrading a `wasRead` state to `hasValue` and keeping every other state. -/
def inheritEntry (a : Entry) : Entry :=
  { a with s := if a.s = .wasRead then .hasValue else a.s }

/-- The entry materialised for a key with no local entry: the transformed
copy of the nearest ancestor entry, or a fresh `hasFactory` entry whose
payload is the default resolution policy. -/
def materialize (w : World) (p : Option Nat) (k : Key) : Entry :=
  match findInh w k w.regs.length p with
  | some a => inheritEntry a
  | none => { s := .hasFactory, v := .fac .defaultL, d := none }

/-- `setEntry(reg, key, s, v)` from the source: refuse when the existing
entry has the falsy state `wasRead` (raising `Already read`), otherwise
overwrite state and payload and clear the dependency record. -/
def setEntryW (w : World) (c : Nat) (k : Key) (st : EState) (v : Dyn) :
    Except Err Unit × World :=
  match lookupE w c k with
  | some e =>
      if e.s = .wasRead then
        (.error (mkErr w (.alreadyRead k)), bump w)
      else
        (.ok (), updE w c k { s := st, v := v, d := none })
  | none => (.ok (), updE w c k { s := st, v := v, d := none })

/-- `ctx.set(key, value)`. -/
def doSet (w : World) (c : Nat) (k : Key) (v : Dyn) : Except Err Unit × World :=
  setEntryW w c k .hasValue v

/-- `ctx.def(key, factory)`. -/
def doDef (w : World) (c : Nat) (k : Key) (fa : Factory) : Except Err Unit × World :=
  setEntryW w c k .hasFactory (.fac fa)

/-- `ctx.fork()`: append a fresh registry whose parent is `c`; the new
context id is the old registry count. -/
def doFork (w : World) (c : Nat) : Nat × World :=
  (w.regs.length, { w with regs := w.regs ++ [{ prev := some c, map := fun _ => none }] })

/-- The `use.this` accessor: the ambient context, or a fresh
`No current context` error. -/
def useThis (w : World) : Except Err Nat × World :=
  match w.ctx with
  | some c => (.ok c, w)
  | none => (.error (mkErr w .noCtx), bump w)

/-- `exec` prologue for a dependency validation pass: install this context
as ambient with no active log (the source calls `exec(fn)` with no `deps`
argument) and count the pass. -/
def valStart (w : World) (c : Nat) : World :=
  { w with ctx := some c, used := none, valRuns := w.valRuns + 1 }

/-- `exec` prologue for a factory run: install this context as ambient with
a fresh empty dependency log, and count the run. -/
def facStart (w : World) (c : Nat) : World :=
  { w with ctx := some c, used := some [], facRuns := w.facRuns + 1 }

/-- `exec` epilogue (the `finally` clause): restore the saved ambient
context and dependency log of `w` into `w₂`. -/
def restoreAmb (w w₂ : World) : World :=
  { w₂ with ctx := w.ctx, used := w.used }

mutual

/-- Calling a context with a key.  A context whose registry has no parent is
the global defaults context and delegates to the ambient context
(`use.this(key)`); a regular context materialises a local entry if needed
and runs the resolution state machine. -/
def invoke : Nat → Nat → Key → World → Option (Except Err Dyn × World)
  | 0, _, _, _ => none
  | fuel + 1, c, k, w =>
      match getReg w c with
      | none => none
      | some reg =>
          match reg.prev with
          | none =>
              match w.ctx with
              | none => some (.error (mkErr w .noCtx), bump w)
              | some c' => invoke fuel c' k w
          | some p =>
              match reg.map k with
              | some _ => loop fuel c k w
              | none => loop fuel c k (updE w c k (materialize w (some p) k))
termination_by structural fuel c k w => fuel

/-- The `for(;;) switch (entry.s)` resolution state machine.  The entry is
re-read from the registry on every iteration (the source mutates the entry
object aliased by the registry). -/
def loop : Nat → Nat → Key → World → Option (Except Err Dyn × World)
  | 0, _, _, _ => none
  | fuel + 1, c, k, w =>
      match lookupE w c k with
      | none => none
      | some e =>
          match e.s with
          | .wasRead =>
              some (.ok e.v, if w.ctx = some c then pushUsed w k else w)
          | .hasValue =>
              match e.d with
              | none => loop fuel c k (updE w c k { e with s := .wasRead })
              | some d =>
                  match validate fuel c d.c d.k (valStart w c) with
                  | none => none
                  | some (.error er, w₂) =>
                      some (.error er, restoreAmb w w₂)
                  | some (.ok true, w₂) =>
                      match lookupE w₂ c k with
                      | none => none
                      | some e₂ =>
                          loop fuel c k
                            (updE (restoreAmb w w₂) c k { e₂ with s := .wasRead })
                  | some (.ok false, w₂) =>
                      match lookupE w₂ c k with
                      | none => none
                      | some e₂ =>
                          factoryCase fuel c k
                            (updE (restoreAmb w w₂) c k { e₂ with v := .fac d.f })
          | .hasFactory => factoryCase fuel c k w
          | .isCreating => some (.error (mkErr w (.cyc e.v k)), bump w)
          | .hasError =>
              match e.v with
              | .err er => some (.error er, w)
              | _ => none
termination_by structural fuel c k w => fuel

/-- The `hasFactory` arm (also entered by fall-through after a failed
dependency validation): mark the entry `isCreating`, execute the factory
under the ambient context, then either store the result as `wasRead` and
record the dependency log, or catch the error and cache it as `hasError`
with the dependency record cleared. -/
def factoryCase : Nat → Nat → Key → World → Option (Except Err Dyn × World)
  | 0, _, _, _ => none
  | fuel + 1, c, k, w =>
      match lookupE w c k with
      | none => none
      | some e =>
          match e.v with
          | .fac fa =>
              match execFac fuel c fa k (updE w c k { e with s := .isCreating }) with
              | none => none
              | some (.error er, _, w₂) =>
                  some (.error er, updE w₂ c k ⟨.hasError, .err er, none⟩)
              | some (.ok v, keys, w₂) =>
                  match setEntryW w₂ c k .wasRead v with
                  | (.error er, w₃) =>
                      some (.error er, updE w₃ c k ⟨.hasError, .err er, none⟩)
                  | (.ok _, w₃) =>
                      if keys.isEmpty then loop fuel c k w₃
                      else
                        match lookupE w₃ c k with
                        | none => none
                        | some e₃ =>
                            loop fuel c k
                              (updE w₃ c k { e₃ with d := some ⟨c, keys, fa⟩ })
          | _ => none
termination_by structural fuel c k w => fuel

/-- `exec(fn, key, deps)`: save the ambient slot pair, install this context
and a fresh dependency log, run the factory, and restore the slots on every
exit, returning the accumulated log alongside the result. -/
def execFac : Nat → Nat → Factory → Key → World → Option (Except Err Dyn × List Key × World)
  | 0, _, _, _, _ => none
  | fuel + 1, c, fa, k, w =>
      let body :=
        match fa with
        | .user _ code => runCode fuel code [] (facStart w c)
        | .defaultL => defaultLookup fuel c k (facStart w c)
      match body with
      | none => none
      | some (r, w₂) =>
          some (r, w₂.used.getD [], restoreAmb w w₂)
termination_by structural fuel c fa k w => fuel

/-- The default resolution policy: run the key's `[use.me]` recipe if it has
one, otherwise instantiate a class-like key (`new key()`, a fresh
allocation), otherwise raise the `No config` reference error. -/
def defaultLookup : Nat → Nat → Key → World → Option (Except Err Dyn × World)
  | 0, _, _, _ => none
  | fuel + 1, _, k, w =>
      match (w.env k).recipe with
      | some code => runCode fuel code [] w
      | none =>
          if (w.env k).classlike then some (.ok (.val w.counter), bump w)
          else some (.error (mkErr w (.noConfig k)), bump w)
termination_by structural fuel c k w => fuel

/-- Run deep-embedded factory code with a local environment of the results
of earlier sequencing steps. -/
def runCode : Nat → FCode → List Dyn → World → Option (Except Err Dyn × World)
  | 0, _, _, _ => none
  | fuel + 1, code, env, w =>
      match code with
      | .pure d => some (.ok d, w)
      | .var i =>
          match env.get? i with
          | some d => some (.ok d, w)
          | none => none
      | .fresh => some (.ok (.val w.counter), bump w)
      | .fail n => some (.error (.mk w.counter (.user n)), bump w)
      | .useG k =>
          match w.ctx with
          | none => some (.error (mkErr w .noCtx), bump w)
          | some c => invoke fuel c k w
      | .useC c k => invoke fuel c k w
      | .seq a b =>
          match runCode fuel a env w with
          | none => none
          | some (.error er, w') => some (.error er, w')
          | some (.ok d, w') => runCode fuel b (d :: env) w'
termination_by structural fuel code env w => fuel

/-- `deps.k.every((k) => me(k) === deps.c(k))`: walk the recorded keys in
order, resolving each in the child context `c` and the origin context `o`,
short-circuiting on the first mismatch; exceptions propagate. -/
def validate : Nat → Nat → Nat → List Key → World → Option (Except Err Bool × World)
  | 0, _, _, _, _ => none
  | _ + 1, _, _, [], w => some (.ok true, w)
  | fuel + 1, c, o, k :: ks, w =>
      match invoke fuel c k w with
      | none => none
      | some (.error er, w₁) => some (.error er, w₁)
      | some (.ok v₁, w₁) =>
          match invoke fuel o k w₁ with
          | none => none
          | some (.error er, w₂) => some (.error er, w₂)
          | some (.ok v₂, w₂) =>
              if dEq v₁ v₂ then validate fuel c o ks w₂
              else some (.ok false, w₂)
termination_by structural fuel c o ks w => fuel

end

end ToUse

namespace ToUse

/-! ## Basic algebra of registries and entries -/

/-- An entry that has been read: terminal success state. -/
def isRead (w : World) (c : Nat) (k : Key) : Prop :=
  ∃ e, lookupE w c k = some e ∧ e.s = .wasRead

/-- A context handle bound to a registry with a parent (a regular, non
global context). -/
def normalCtx (w : World) (c : Nat) : Prop :=
  ∃ r p, getReg w c = some r ∧ r.prev = some p

theorem getReg_updE_ne (w : World) (c : Nat) (k : Key) (e : Entry) (j : Nat)
    (hj : j ≠ c) : getReg (updE w c k e) j = getReg w j := by
  unfold updE
  cases hc : getReg w c with
  | none => rfl
  | some r =>
      simp only [getReg] at *
      exact List.getElem?_set_ne (fun h => hj h.symm)

theorem getReg_lt (w : World) (c : Nat) (r : Reg) (h : getReg w c = some r) :
    c < w.regs.length := by
  simp only [getReg] at h
  by_contra hlt
  rw [List.getElem?_eq_none (Nat.le_of_not_lt hlt)] at h
  cases h

theorem getReg_updE_self (w : World) (c : Nat) (k : Key) (e : Entry) (r : Reg)
    (h : getReg w c = some r) :
    getReg (updE w c k e) c =
      some { r with map := fun k' => if k' = k then some e else r.map k' } := by
  have hlen := getReg_lt w c r h
  unfold updE
  rw [h]
  simp only [getReg]
  exact List.getElem?_set_eq_of_lt _ hlen

theorem lookupE_updE_self (w : World) (c : Nat) (k : Key) (e : Entry) (r : Reg)
    (h : getReg w c = some r) : lookupE (updE w c k e) c k = some e := by
  unfold lookupE
  rw [getReg_updE_self w c k e r h]
  simp

theorem lookupE_updE_ne_key (w : World) (c : Nat) (k : Key) (e : Entry) (k' : Key)
    (hk : k' ≠ k) : lookupE (updE w c k e) c k' = lookupE w c k' := by
  unfold lookupE
  cases h : getReg w c with
  | none =>
      have : updE w c k e = w := by unfold updE; rw [h]
      rw [this, h]
  | some r =>
      rw [getReg_updE_self w c k e r h]
      simp [hk]

theorem lookupE_updE_ne_ctx (w : World) (c : Nat) (k : Key) (e : Entry) (j : Nat)
    (k' : Key) (hj : j ≠ c) : lookupE (updE w c k e) j k' = lookupE w j k' := by
  unfold lookupE
  rw [getReg_updE_ne w c k e j hj]

theorem updE_regs_length (w : World) (c : Nat) (k : Key) (e : Entry) :
    (updE w c k e).regs.length = w.regs.length := by
  unfold updE
  cases getReg w c <;> simp

theorem updE_prev (w : World) (c : Nat) (k : Key) (e : Entry) (j : Nat) :
    (getReg (updE w c k e) j).map Reg.prev = (getReg w j).map Reg.prev := by
  by_cases hj : j = c
  · cases h : getReg w c with
    | none =>
        have : updE w c k e = w := by unfold updE; rw [h]
        rw [this]
    | some r =>
        rw [hj, getReg_updE_self w c k e r h, h]
        rfl
  · rw [getReg_updE_ne w c k e j hj]

theorem updE_ctx (w : World) (c : Nat) (k : Key) (e : Entry) :
    (updE w c k e).ctx = w.ctx := by
  unfold updE; cases getReg w c <;> rfl

theorem updE_used (w : World) (c : Nat) (k : Key) (e : Entry) :
    (updE w c k e).used = w.used := by
  unfold updE; cases getReg w c <;> rfl

theorem updE_counter (w : World) (c : Nat) (k : Key) (e : Entry) :
    (updE w c k e).counter = w.counter := by
  unfold updE; cases getReg w c <;> rfl

theorem updE_env (w : World) (c : Nat) (k : Key) (e : Entry) :
    (updE w c k e).env = w.env := by
  unfold updE; cases getReg w c <;> rfl

theorem updE_facRuns (w : World) (c : Nat) (k : Key) (e : Entry) :
    (updE w c k e).facRuns = w.facRuns := by
  unfold updE; cases getReg w c <;> rfl

theorem updE_valRuns (w : World) (c : Nat) (k : Key) (e : Entry) :
    (updE w c k e).valRuns = w.valRuns := by
  unfold updE; cases getReg w c <;> rfl

end ToUse
namespace ToUse

/-! ## One-step characterisations of the interpreter -/

theorem invoke_noReg (fuel c k w) (h : getReg w c = none) :
    invoke (fuel + 1) c k w = none := by
  simp only [invoke, h]

theorem invoke_global_noCtx (fuel c k w r) (h : getReg w c = some r)
    (hp : r.prev = none) (hc : w.ctx = none) :
    invoke (fuel + 1) c k w = some (.error (mkErr w .noCtx), bump w) := by
  simp only [invoke, h, hp, hc]

theorem invoke_global_delegate (fuel c k w r c') (h : getReg w c = some r)
    (hp : r.prev = none) (hc : w.ctx = some c') :
    invoke (fuel + 1) c k w = invoke fuel c' k w := by
  simp only [invoke, h, hp, hc]

theorem invoke_hit (fuel c k w r p e) (h : getReg w c = some r)
    (hp : r.prev = some p) (hm : r.map k = some e) :
    invoke (fuel + 1) c k w = loop fuel c k w := by
  simp only [invoke, h, hp, hm]

theorem invoke_miss (fuel c k w r p) (h : getReg w c = some r)
    (hp : r.prev = some p) (hm : r.map k = none) :
    invoke (fuel + 1) c k w = loop fuel c k (updE w c k (materialize w (some p) k)) := by
  simp only [invoke, h, hp, hm]

theorem loop_noEntry (fuel c k w) (h : lookupE w c k = none) :
    loop (fuel + 1) c k w = none := by
  simp only [loop, h]

theorem loop_wasRead (fuel c k w e) (h : lookupE w c k = some e)
    (hs : e.s = .wasRead) :
    loop (fuel + 1) c k w = some (.ok e.v, if w.ctx = some c then pushUsed w k else w) := by
  simp only [loop, h, hs]

theorem loop_hasValue_noDeps (fuel c k w e) (h : lookupE w c k = some e)
    (hs : e.s = .hasValue) (hd : e.d = none) :
    loop (fuel + 1) c k w = loop fuel c k (updE w c k { e with s := .wasRead }) := by
  simp only [loop, h, hs, hd]

theorem loop_val_err (fuel c k w e d er w₂) (h : lookupE w c k = some e)
    (hs : e.s = .hasValue) (hd : e.d = some d)
    (hv : validate fuel c d.c d.k (valStart w c) = some (.error er, w₂)) :
    loop (fuel + 1) c k w = some (.error er, restoreAmb w w₂) := by
  simp only [loop, h, hs, hd, hv]

theorem loop_val_true (fuel c k w e d w₂ e₂) (h : lookupE w c k = some e)
    (hs : e.s = .hasValue) (hd : e.d = some d)
    (hv : validate fuel c d.c d.k (valStart w c) = some (.ok true, w₂))
    (h₂ : lookupE w₂ c k = some e₂) :
    loop (fuel + 1) c k w =
      loop fuel c k (updE (restoreAmb w w₂) c k { e₂ with s := .wasRead }) := by
  simp only [loop, h, hs, hd, hv, h₂]

theorem loop_val_false (fuel c k w e d w₂ e₂) (h : lookupE w c k = some e)
    (hs : e.s = .hasValue) (hd : e.d = some d)
    (hv : validate fuel c d.c d.k (valStart w c) = some (.ok false, w₂))
    (h₂ : lookupE w₂ c k = some e₂) :
    loop (fuel + 1) c k w =
      factoryCase fuel c k (updE (restoreAmb w w₂) c k { e₂ with v := .fac d.f }) := by
  simp only [loop, h, hs, hd, hv, h₂]

theorem loop_hasFactory (fuel c k w e) (h : lookupE w c k = some e)
    (hs : e.s = .hasFactory) :
    loop (fuel + 1) c k w = factoryCase fuel c k w := by
  simp only [loop, h, hs]

theorem loop_isCreating (fuel c k w e) (h : lookupE w c k = some e)
    (hs : e.s = .isCreating) :
    loop (fuel + 1) c k w = some (.error (mkErr w (.cyc e.v k)), bump w) := by
  simp only [loop, h, hs]

theorem loop_hasError (fuel c k w e er) (h : lookupE w c k = some e)
    (hs : e.s = .hasError) (hv : e.v = .err er) :
    loop (fuel + 1) c k w = some (.error er, w) := by
  simp only [loop, h, hs, hv]

theorem factoryCase_err (fuel c k w e fa er ks w₂) (h : lookupE w c k = some e)
    (hv : e.v = .fac fa)
    (hex : execFac fuel c fa k (updE w c k { e with s := .isCreating })
      = some (.error er, ks, w₂)) :
    factoryCase (fuel + 1) c k w = some (.error er, updE w₂ c k ⟨.hasError, .err er, none⟩) := by
  rw [hv] at hex
  simp only [factoryCase, h, hv, hex]

theorem factoryCase_ok (fuel c k w e fa v ks w₂) (h : lookupE w c k = some e)
    (hv : e.v = .fac fa)
    (hex : execFac fuel c fa k (updE w c k { e with s := .isCreating })
      = some (.ok v, ks, w₂)) :
    factoryCase (fuel + 1) c k w =
      match setEntryW w₂ c k .wasRead v with
      | (.error er, w₃) => some (.error er, updE w₃ c k ⟨.hasError, .err er, none⟩)
      | (.ok _, w₃) =>
          if ks.isEmpty then loop fuel c k w₃
          else
            match lookupE w₃ c k with
            | none => none
            | some e₃ => loop fuel c k (updE w₃ c k { e₃ with d := some ⟨c, ks, fa⟩ }) := by
  rw [hv] at hex
  simp only [factoryCase, h, hv, hex]

theorem execFac_user (fuel c fid code k w) :
    execFac (fuel + 1) c (.user fid code) k w =
      match runCode fuel code [] (facStart w c) with
      | none => none
      | some (r, w₂) => some (r, w₂.used.getD [], restoreAmb w w₂) := by
  simp only [execFac]

theorem execFac_defaultL (fuel c k w) :
    execFac (fuel + 1) c .defaultL k w =
      match defaultLookup fuel c k (facStart w c) with
      | none => none
      | some (r, w₂) => some (r, w₂.used.getD [], restoreAmb w w₂) := by
  simp only [execFac]

theorem validate_nil (fuel c o w) : validate (fuel + 1) c o [] w = some (.ok true, w) := by
  simp only [validate]

theorem validate_cons (fuel c o k ks w) :
    validate (fuel + 1) c o (k :: ks) w =
      match invoke fuel c k w with
      | none => none
      | some (.error er, w₁) => some (.error er, w₁)
      | some (.ok v₁, w₁) =>
          match invoke fuel o k w₁ with
          | none => none
          | some (.error er, w₂) => some (.error er, w₂)
          | some (.ok v₂, w₂) =>
              if dEq v₁ v₂ then validate fuel c o ks w₂
              else some (.ok false, w₂) := by
  simp only [validate]

theorem setEntryW_alreadyRead (w c k st v e) (h : lookupE w c k = some e)
    (hs : e.s = .wasRead) :
    setEntryW w c k st v = (.error (mkErr w (.alreadyRead k)), bump w) := by
  simp [setEntryW, h, hs]

theorem setEntryW_write (w c k st v e) (h : lookupE w c k = some e)
    (hs : e.s ≠ .wasRead) :
    setEntryW w c k st v = (.ok (), updE w c k ⟨st, v, none⟩) := by
  simp only [setEntryW, h, if_neg hs]

theorem setEntryW_insert (w c k st v) (h : lookupE w c k = none) :
    setEntryW w c k st v = (.ok (), updE w c k ⟨st, v, none⟩) := by
  simp only [setEntryW, h]

end ToUse
namespace ToUse

/-! ## Preservation of the ambient slots -/

/-- The net effect of a run on the ambient slot pair: the ambient context is
always restored/unchanged, and when no dependency log was active none is
active afterwards. -/
def ambOK (u v : World) : Prop := v.ctx = u.ctx ∧ (u.used = none → v.used = none)

theorem ambOK_refl (w : World) : ambOK w w := ⟨rfl, fun h => h⟩

theorem ambOK_trans {u v x : World} (h₁ : ambOK u v) (h₂ : ambOK v x) : ambOK u x :=
  ⟨h₂.1.trans h₁.1, fun h => h₂.2 (h₁.2 h)⟩

theorem ambOK_updE (w : World) (c : Nat) (k : Key) (e : Entry) :
    ambOK w (updE w c k e) := ⟨updE_ctx w c k e, fun h => (updE_used w c k e).trans h⟩

theorem ambOK_bump (w : World) : ambOK w (bump w) := ⟨rfl, fun h => h⟩

theorem ambOK_push (w : World) (k : Key) : ambOK w (pushUsed w k) := by
  unfold pushUsed
  cases h : w.used with
  | none => exact ambOK_refl w
  | some l => exact ⟨rfl, fun hn => by rw [h] at hn; cases hn⟩

theorem ambOK_restore (w w₂ : World) : ambOK w (restoreAmb w w₂) := ⟨rfl, fun h => h⟩

theorem ambOK_setEntryW (w : World) (c : Nat) (k : Key) (st : EState) (v : Dyn) :
    ambOK w (setEntryW w c k st v).2 := by
  unfold setEntryW
  cases h : lookupE w c k with
  | none => exact ambOK_updE w c k _
  | some e =>
      by_cases hs : e.s = .wasRead
      · simp only [hs, if_pos rfl]
        exact ambOK_bump w
      · simp only [if_neg hs]
        exact ambOK_updE w c k _

/-- All seven interpreter functions preserve the ambient slots. -/
theorem ambPres : ∀ fuel : Nat,
    (∀ c k w r w', invoke fuel c k w = some (r, w') → ambOK w w') ∧
    (∀ c k w r w', loop fuel c k w = some (r, w') → ambOK w w') ∧
    (∀ c k w r w', factoryCase fuel c k w = some (r, w') → ambOK w w') ∧
    (∀ c fa k w r ks w', execFac fuel c fa k w = some (r, ks, w') → ambOK w w') ∧
    (∀ c k w r w', defaultLookup fuel c k w = some (r, w') → ambOK w w') ∧
    (∀ code env w r w', runCode fuel code env w = some (r, w') → ambOK w w') ∧
    (∀ c o ks w r w', validate fuel c o ks w = some (r, w') → ambOK w w') := by
  intro fuel
  induction fuel with
  | zero =>
      refine ⟨fun c k w r w' h => ?_, fun c k w r w' h => ?_, fun c k w r w' h => ?_,
        fun c fa k w r ks w' h => ?_, fun c k w r w' h => ?_, fun code env w r w' h => ?_,
        fun c o ks w r w' h => ?_⟩ <;>
      simp [invoke, loop, factoryCase, execFac, defaultLookup, runCode, validate] at h
  | succ n ih =>
      obtain ⟨ihInv, ihLoop, ihFac, ihExec, ihDef, ihRun, ihVal⟩ := ih
      refine ⟨?_, ?_, ?_, ?_, ?_, ?_, ?_⟩
      -- invoke
      · intro c k w r w' h
        simp only [invoke] at h
        split at h
        · cases h
        · split at h
          · split at h
            · cases h
              exact ambOK_bump w
            · exact ihInv _ _ _ _ _ h
          · split at h
            · exact ihLoop _ _ _ _ _ h
            · exact ambOK_trans (ambOK_updE w c k _) (ihLoop _ _ _ _ _ h)
      -- loop
      · intro c k w r w' h
        simp only [loop] at h
        split at h
        · cases h
        · split at h
          · cases h
            split
            · exact ambOK_push w k
            · exact ambOK_refl w
          · split at h
            · exact ambOK_trans (ambOK_updE w c k _) (ihLoop _ _ _ _ _ h)
            · split at h
              · cases h
              · cases h
                exact ambOK_restore w _
              · split at h
                · cases h
                · exact ambOK_trans (ambOK_trans (ambOK_restore w _) (ambOK_updE _ c k _))
                    (ihLoop _ _ _ _ _ h)
              · split at h
                · cases h
                · exact ambOK_trans (ambOK_trans (ambOK_restore w _) (ambOK_updE _ c k _))
                    (ihFac _ _ _ _ _ h)
          · exact ihFac _ _ _ _ _ h
          · cases h
            exact ambOK_bump w
          · split at h
            · cases h
              exact ambOK_refl w
            · cases h
      -- factoryCase
      · intro c k w r w' h
        simp only [factoryCase] at h
        split at h
        · cases h
        · split at h
          · split at h
            · cases h
            · cases h
              rename_i er ks w₂ heq
              have h₁ : ambOK w w₂ :=
                ambOK_trans (ambOK_updE w c k _) (ihExec _ _ _ _ _ _ _ heq)
              exact ambOK_trans h₁ (ambOK_updE w₂ c k _)
            · rename_i v ks w₂ heq
              have h₁ : ambOK w w₂ :=
                ambOK_trans (ambOK_updE w c k _) (ihExec _ _ _ _ _ _ _ heq)
              split at h
              · cases h
                rename_i heq₂
                have h₂ : ambOK w₂ _ := ambOK_setEntryW w₂ c k .wasRead v
                rw [heq₂] at h₂
                exact ambOK_trans h₁ (ambOK_trans h₂ (ambOK_updE _ c k _))
              · rename_i w₃ heq₂
                have h₂ : ambOK w₂ w₃ := by
                  have := ambOK_setEntryW w₂ c k .wasRead v
                  rw [heq₂] at this
                  exact this
                split at h
                · exact ambOK_trans h₁ (ambOK_trans h₂ (ihLoop _ _ _ _ _ h))
                · split at h
                  · cases h
                  · exact ambOK_trans h₁ (ambOK_trans h₂
                      (ambOK_trans (ambOK_updE w₃ c k _) (ihLoop _ _ _ _ _ h)))
          · cases h
      -- execFac
      · intro c fa k w r ks w' h
        simp only [execFac] at h
        split at h
        · cases h
        · cases h
          exact ambOK_restore w _
      -- defaultLookup
      · intro c k w r w' h
        simp only [defaultLookup] at h
        split at h
        · exact ihRun _ _ _ _ _ h
        · split at h
          · cases h
            exact ambOK_bump w
          · cases h
            exact ambOK_bump w
      -- runCode
      · intro code env w r w' h
        simp only [runCode] at h
        split at h
        · cases h
          exact ambOK_refl w
        · split at h
          · cases h
            exact ambOK_refl w
          · cases h
        · cases h
          exact ambOK_bump w
        · cases h
          exact ambOK_bump w
        · split at h
          · cases h
            exact ambOK_bump w
          · exact ihInv _ _ _ _ _ h
        · exact ihInv _ _ _ _ _ h
        · split at h
          · cases h
          · rename_i er w₁ heq
            cases h
            exact ihRun _ _ _ _ _ heq
          · rename_i d w₁ heq
            exact ambOK_trans (ihRun _ _ _ _ _ heq) (ihRun _ _ _ _ _ h)
      -- validate
      · intro c o ks w r w' h
        match ks with
        | [] =>
            rw [validate_nil] at h
            cases h
            exact ambOK_refl w
        | k :: ks' =>
            rw [validate_cons] at h
            split at h
            · cases h
            · cases h
              rename_i heq
              exact ihInv _ _ _ _ _ heq
            · rename_i v₁ w₁ heq₁
              split at h
              · cases h
              · cases h
                rename_i heq₂
                exact ambOK_trans (ihInv _ _ _ _ _ heq₁) (ihInv _ _ _ _ _ heq₂)
              · rename_i v₂ w₂ heq₂
                have h₁₂ : ambOK w w₂ :=
                  ambOK_trans (ihInv _ _ _ _ _ heq₁) (ihInv _ _ _ _ _ heq₂)
                split at h
                · exact ambOK_trans h₁₂ (ihVal _ _ _ _ _ _ h)
                · cases h
                  exact h₁₂

end ToUse
namespace ToUse

/-! ## Success funnels through the `wasRead` state -/

theorem pushUsed_regs (w : World) (k : Key) : (pushUsed w k).regs = w.regs := by
  unfold pushUsed; cases w.used <;> rfl

theorem lookupE_pushUsed (w : World) (k : Key) (c : Nat) (k' : Key) :
    lookupE (pushUsed w k) c k' = lookupE w c k' := by
  unfold lookupE getReg
  rw [pushUsed_regs]

/-- Every successful resolution returns the payload of an entry that is in
state `wasRead` in the final world: the state machine only returns a value
through the `wasRead` arm. -/
theorem okRead : ∀ fuel : Nat,
    (∀ c k w v w', loop fuel c k w = some (.ok v, w') →
      ∃ e, lookupE w' c k = some e ∧ e.s = .wasRead ∧ e.v = v) ∧
    (∀ c k w v w', factoryCase fuel c k w = some (.ok v, w') →
      ∃ e, lookupE w' c k = some e ∧ e.s = .wasRead ∧ e.v = v) ∧
    (∀ c k w v w' r p, getReg w c = some r → r.prev = some p →
      invoke fuel c k w = some (.ok v, w') →
      ∃ e, lookupE w' c k = some e ∧ e.s = .wasRead ∧ e.v = v) := by
  intro fuel
  induction fuel with
  | zero =>
      refine ⟨fun c k w v w' h => ?_, fun c k w v w' h => ?_,
        fun c k w v w' r p _ _ h => ?_⟩ <;>
      simp [loop, factoryCase, invoke] at h
  | succ n ih =>
      obtain ⟨ihLoop, ihFac, ihInv⟩ := ih
      refine ⟨?_, ?_, ?_⟩
      -- loop
      · intro c k w v w' h
        simp only [loop] at h
        split at h
        · cases h
        · rename_i e he
          split at h
          · cases h
            refine ⟨e, ?_, ‹_›, rfl⟩
            split
            · rw [lookupE_pushUsed]; exact he
            · exact he
          · split at h
            · exact ihLoop _ _ _ _ _ h
            · split at h
              · cases h
              · cases h
              · split at h
                · cases h
                · exact ihLoop _ _ _ _ _ h
              · split at h
                · cases h
                · exact ihFac _ _ _ _ _ h
          · exact ihFac _ _ _ _ _ h
          · cases h
          · split at h
            · cases h
            · cases h
      -- factoryCase
      · intro c k w v w' h
        simp only [factoryCase] at h
        split at h
        · cases h
        · split at h
          · split at h
            · cases h
            · cases h
            · split at h
              · cases h
              · split at h
                · exact ihLoop _ _ _ _ _ h
                · split at h
                  · cases h
                  · exact ihLoop _ _ _ _ _ h
          · cases h
      -- invoke
      · intro c k w v w' r p hr hp h
        simp only [invoke] at h
        split at h
        · cases h
        · rename_i r' hr'
          rw [hr] at hr'
          cases hr'
          split at h
          · rename_i hp'
            rw [hp] at hp'
            cases hp'
          · split at h
            · exact ihLoop _ _ _ _ _ h
            · exact ihLoop _ _ _ _ _ h

end ToUse
namespace ToUse

/-! ## Stability of already-read entries -/

/-- Entries that are `wasRead` before a run survive it unchanged. -/
def wpF (u v : World) : Prop :=
  ∀ j k₀ e₀, lookupE u j k₀ = some e₀ → e₀.s = .wasRead → lookupE v j k₀ = some e₀

/-- As `wpF`, but exempting the single slot `(c, k)` owned by the running
state-machine frame. -/
def wpX (c : Nat) (k : Key) (u v : World) : Prop :=
  ∀ j k₀ e₀, j ≠ c ∨ k₀ ≠ k → lookupE u j k₀ = some e₀ → e₀.s = .wasRead →
    lookupE v j k₀ = some e₀

theorem wpF_refl (w : World) : wpF w w := fun _ _ _ h _ => h

theorem wpF_trans {u v x : World} (h₁ : wpF u v) (h₂ : wpF v x) : wpF u x :=
  fun j k₀ e₀ h hs => h₂ j k₀ e₀ (h₁ j k₀ e₀ h hs) hs

theorem wpF_wpX {c k u v} (h : wpF u v) : wpX c k u v :=
  fun j k₀ e₀ _ h₀ hs => h j k₀ e₀ h₀ hs

theorem lookupE_updE_ne (w : World) (c : Nat) (k : Key) (e : Entry) (j : Nat) (k₀ : Key)
    (h : j ≠ c ∨ k₀ ≠ k) : lookupE (updE w c k e) j k₀ = lookupE w j k₀ := by
  rcases h with h | h
  · exact lookupE_updE_ne_ctx w c k e j k₀ h
  · by_cases hj : j = c
    · rw [hj]; exact lookupE_updE_ne_key w c k e k₀ h
    · exact lookupE_updE_ne_ctx w c k e j k₀ hj

theorem wpX_updE (u : World) (c : Nat) (k : Key) (e : Entry) :
    wpX c k u (updE u c k e) :=
  fun j k₀ e₀ hne h₀ _ => by rw [lookupE_updE_ne u c k e j k₀ hne]; exact h₀

theorem wpF_updE_of_not_read (u : World) (c : Nat) (k : Key) (e : Entry)
    (h : ∀ e₀, lookupE u c k = some e₀ → e₀.s ≠ .wasRead) :
    wpF u (updE u c k e) := by
  intro j k₀ e₀ h₀ hs
  by_cases hjk : j = c ∧ k₀ = k
  · obtain ⟨hj, hk⟩ := hjk
    rw [hj, hk] at h₀
    exact absurd hs (h e₀ h₀)
  · rw [lookupE_updE_ne u c k e j k₀ (by tauto)]
    exact h₀

theorem lookupE_bump (w : World) (j : Nat) (k₀ : Key) :
    lookupE (bump w) j k₀ = lookupE w j k₀ := rfl

theorem wpF_bump (w : World) : wpF w (bump w) := fun _ _ _ h _ => h

theorem lookupE_restoreAmb (w w₂ : World) (j : Nat) (k₀ : Key) :
    lookupE (restoreAmb w w₂) j k₀ = lookupE w₂ j k₀ := rfl

theorem lookupE_valStart (w : World) (c : Nat) (j : Nat) (k₀ : Key) :
    lookupE (valStart w c) j k₀ = lookupE w j k₀ := rfl

theorem lookupE_facStart (w : World) (c : Nat) (j : Nat) (k₀ : Key) :
    lookupE (facStart w c) j k₀ = lookupE w j k₀ := rfl

theorem wpF_pushUsed (w : World) (k : Key) : wpF w (pushUsed w k) :=
  fun j k₀ _ h _ => by rw [lookupE_pushUsed]; exact h

theorem wpX_setEntryW (w : World) (c : Nat) (k : Key) (st : EState) (v : Dyn) :
    wpX c k w (setEntryW w c k st v).2 := by
  unfold setEntryW
  cases h : lookupE w c k with
  | none => exact wpX_updE w c k _
  | some e =>
      by_cases hs : e.s = .wasRead
      · simp only [hs, if_pos rfl]
        exact fun j k₀ e₀ _ h₀ _ => h₀
      · simp only [if_neg hs]
        exact wpX_updE w c k _

/-- All runs preserve entries that were already `wasRead` when they started
(`factoryCase` may rewrite its own frame's entry, which is never `wasRead`
when the state machine dispatches into it). -/
theorem wpPres : ∀ fuel : Nat,
    (∀ c k w r w', invoke fuel c k w = some (r, w') → wpF w w') ∧
    (∀ c k w r w', loop fuel c k w = some (r, w') → wpF w w') ∧
    (∀ c k w r w', factoryCase fuel c k w = some (r, w') → wpX c k w w') ∧
    (∀ c fa k w r ks w', execFac fuel c fa k w = some (r, ks, w') → wpF w w') ∧
    (∀ c k w r w', defaultLookup fuel c k w = some (r, w') → wpF w w') ∧
    (∀ code env w r w', runCode fuel code env w = some (r, w') → wpF w w') ∧
    (∀ c o ks w r w', validate fuel c o ks w = some (r, w') → wpF w w') := by
  intro fuel
  induction fuel with
  | zero =>
      refine ⟨fun c k w r w' h => ?_, fun c k w r w' h => ?_, fun c k w r w' h => ?_,
        fun c fa k w r ks w' h => ?_, fun c k w r w' h => ?_, fun code env w r w' h => ?_,
        fun c o ks w r w' h => ?_⟩ <;>
      simp [invoke, loop, factoryCase, execFac, defaultLookup, runCode, validate] at h
  | succ n ih =>
      obtain ⟨ihInv, ihLoop, ihFac, ihExec, ihDef, ihRun, ihVal⟩ := ih
      refine ⟨?_, ?_, ?_, ?_, ?_, ?_, ?_⟩
      -- invoke
      · intro c k w r w' h
        simp only [invoke] at h
        split at h
        · cases h
        · rename_i reg hreg
          split at h
          · split at h
            · cases h
              exact wpF_bump w
            · exact ihInv _ _ _ _ _ h
          · rename_i p hprev
            split at h
            · exact ihLoop _ _ _ _ _ h
            · rename_i hm
              have hnone : lookupE w c k = none := by
                simp only [lookupE, hreg, hm]
              have hstep : wpF w (updE w c k (materialize w (some p) k)) := by
                apply wpF_updE_of_not_read
                intro e₀ h₀
                rw [hnone] at h₀
                cases h₀
              exact wpF_trans hstep (ihLoop _ _ _ _ _ h)
      -- loop
      · intro c k w r w' h
        simp only [loop] at h
        split at h
        · cases h
        · rename_i e he
          -- helper: when the dispatched state is not wasRead, obligations at (c,k)
          -- are vacuous, so a wpX for the rest suffices
          have ofX : ∀ {v : World}, e.s ≠ .wasRead → wpX c k w v → wpF w v := by
            intro v hs hx j k₀ e₀ h₀ hs₀
            by_cases hjk : j = c ∧ k₀ = k
            · obtain ⟨hj, hk⟩ := hjk
              rw [hj, hk, he] at h₀
              cases h₀
              exact absurd hs₀ hs
            · exact hx j k₀ e₀ (by tauto) h₀ hs₀
          split at h
          · cases h
            split
            · exact wpF_pushUsed w k
            · exact wpF_refl w
          · rename_i hs
            have hsne : e.s ≠ .wasRead := by rw [hs]; exact fun hc => by cases hc
            split at h
            · refine ofX hsne ?_
              refine wpF_wpX (wpF_trans ?_ (ihLoop _ _ _ _ _ h))
              apply wpF_updE_of_not_read
              intro e₀ h₀
              rw [he] at h₀
              cases h₀
              rw [hs]
              exact fun hc => by cases hc
            · rename_i d hd
              split at h
              · cases h
              · rename_i er w₂ heq
                cases h
                intro j k₀ e₀ h₀ hs₀
                rw [lookupE_restoreAmb]
                exact ihVal _ _ _ _ _ _ heq j k₀ e₀ h₀ hs₀
              · rename_i w₂ heq
                split at h
                · cases h
                · rename_i e₂ he₂
                  refine ofX hsne ?_
                  intro j k₀ e₀ hne h₀ hs₀
                  have h₁ := ihVal _ _ _ _ _ _ heq j k₀ e₀ h₀ hs₀
                  have h₂ : lookupE (updE (restoreAmb w w₂) c k { e₂ with s := .wasRead }) j k₀ = some e₀ := by
                    rw [lookupE_updE_ne _ c k _ j k₀ hne, lookupE_restoreAmb]
                    exact h₁
                  exact ihLoop _ _ _ _ _ h j k₀ e₀ h₂ hs₀
              · rename_i w₂ heq
                split at h
                · cases h
                · rename_i e₂ he₂
                  refine ofX hsne ?_
                  intro j k₀ e₀ hne h₀ hs₀
                  have h₁ := ihVal _ _ _ _ _ _ heq j k₀ e₀ h₀ hs₀
                  have h₂ : lookupE (updE (restoreAmb w w₂) c k { e₂ with v := .fac d.f }) j k₀ = some e₀ := by
                    rw [lookupE_updE_ne _ c k _ j k₀ hne, lookupE_restoreAmb]
                    exact h₁
                  exact ihFac _ _ _ _ _ h j k₀ e₀ hne h₂ hs₀
          · rename_i hs
            have hsne : e.s ≠ .wasRead := by rw [hs]; exact fun hc => by cases hc
            exact ofX hsne (ihFac _ _ _ _ _ h)
          · cases h
            exact wpF_bump w
          · split at h
            · cases h
              exact wpF_refl w
            · cases h
      -- factoryCase
      · intro c k w r w' h
        simp only [factoryCase] at h
        split at h
        · cases h
        · rename_i e he
          split at h
          · rename_i fa hv
            split at h
            · cases h
            · rename_i er ks w₂ heq
              cases h
              intro j k₀ e₀ hne h₀ hs
              have h₁ := wpX_updE w c k { e with s := .isCreating } j k₀ e₀ hne h₀ hs
              have h₂ := ihExec _ _ _ _ _ _ _ heq j k₀ e₀ h₁ hs
              rw [lookupE_updE_ne w₂ c k _ j k₀ hne]
              exact h₂
            · rename_i v ks w₂ heq
              have h₁ : wpX c k w w₂ := by
                intro j k₀ e₀ hne h₀ hs
                have h₁ := wpX_updE w c k { e with s := .isCreating } j k₀ e₀ hne h₀ hs
                exact ihExec _ _ _ _ _ _ _ heq j k₀ e₀ h₁ hs
              split at h
              · rename_i er w₃ heq₂
                cases h
                intro j k₀ e₀ hne h₀ hs
                have h₂ := h₁ j k₀ e₀ hne h₀ hs
                have h₃ := wpX_setEntryW w₂ c k .wasRead v j k₀ e₀ hne h₂ hs
                rw [heq₂] at h₃
                rw [lookupE_updE_ne w₃ c k _ j k₀ hne]
                exact h₃
              · rename_i w₃ heq₂
                have h₂ : wpX c k w w₃ := by
                  intro j k₀ e₀ hne h₀ hs
                  have h₃ := wpX_setEntryW w₂ c k .wasRead v j k₀ e₀ hne (h₁ j k₀ e₀ hne h₀ hs) hs
                  rw [heq₂] at h₃
                  exact h₃
                split at h
                · intro j k₀ e₀ hne h₀ hs
                  exact ihLoop _ _ _ _ _ h j k₀ e₀ (h₂ j k₀ e₀ hne h₀ hs) hs
                · split at h
                  · cases h
                  · rename_i e₃ he₃
                    intro j k₀ e₀ hne h₀ hs
                    have h₃ := h₂ j k₀ e₀ hne h₀ hs
                    have h₄ : lookupE (updE w₃ c k { e₃ with d := some ⟨c, ks, fa⟩ }) j k₀ = some e₀ := by
                      rw [lookupE_updE_ne w₃ c k _ j k₀ hne]
                      exact h₃
                    exact ihLoop _ _ _ _ _ h j k₀ e₀ h₄ hs
          · cases h
      -- execFac
      · intro c fa k w r ks w' h
        simp only [execFac] at h
        split at h
        · cases h
        · rename_i r₂ w₂ heq
          cases h
          intro j k₀ e₀ h₀ hs
          rw [lookupE_restoreAmb]
          split at heq
          · exact ihRun _ _ _ _ _ heq j k₀ e₀ h₀ hs
          · exact ihDef _ _ _ _ _ heq j k₀ e₀ h₀ hs
      -- defaultLookup
      · intro c k w r w' h
        simp only [defaultLookup] at h
        split at h
        · exact ihRun _ _ _ _ _ h
        · split at h
          · cases h
            exact wpF_bump w
          · cases h
            exact wpF_bump w
      -- runCode
      · intro code env w r w' h
        simp only [runCode] at h
        split at h
        · cases h
          exact wpF_refl w
        · split at h
          · cases h
            exact wpF_refl w
          · cases h
        · cases h
          exact wpF_bump w
        · cases h
          exact wpF_bump w
        · split at h
          · cases h
            exact wpF_bump w
          · exact ihInv _ _ _ _ _ h
        · exact ihInv _ _ _ _ _ h
        · split at h
          · cases h
          · rename_i er w₁ heq
            cases h
            exact ihRun _ _ _ _ _ heq
          · rename_i d w₁ heq
            exact wpF_trans (ihRun _ _ _ _ _ heq) (ihRun _ _ _ _ _ h)
      -- validate
      · intro c o ks w r w' h
        match ks with
        | [] =>
            rw [validate_nil] at h
            cases h
            exact wpF_refl w
        | k :: ks' =>
            rw [validate_cons] at h
            split at h
            · cases h
            · rename_i er w₁ heq
              cases h
              exact ihInv _ _ _ _ _ heq
            · rename_i v₁ w₁ heq₁
              split at h
              · cases h
              · rename_i er w₂ heq₂
                cases h
                exact wpF_trans (ihInv _ _ _ _ _ heq₁) (ihInv _ _ _ _ _ heq₂)
              · rename_i v₂ w₂ heq₂
                have h₁₂ : wpF w w₂ :=
                  wpF_trans (ihInv _ _ _ _ _ heq₁) (ihInv _ _ _ _ _ heq₂)
                split at h
                · exact wpF_trans h₁₂ (ihVal _ _ _ _ _ _ h)
                · cases h
                  exact h₁₂

end ToUse
namespace ToUse

/-! ## The frame property: lookups write only their own registry -/

/-- Factory code that performs lookups only through the ambient context
(no explicit invocation of another context handle). -/
def AOcode : FCode → Prop
  | .pure _ => True
  | .var _ => True
  | .fresh => True
  | .fail _ => True
  | .useG _ => True
  | .useC _ _ => False
  | .seq a b => AOcode a ∧ AOcode b

/-- A factory whose body (if any) is ambient-only. -/
def AOfac : Factory → Prop
  | .user _ code => AOcode code
  | .defaultL => True

/-- All factories reachable from the world are ambient-only: payloads of
entries in factory-carrying states, factories in dependency records, and
`[use.me]` recipes. -/
def AOw (w : World) : Prop :=
  (∀ j r, getReg w j = some r → ∀ k e, r.map k = some e →
    ((e.s = .hasFactory ∨ e.s = .isCreating) → ∀ fa, e.v = .fac fa → AOfac fa) ∧
    (∀ d, e.d = some d → AOfac d.f)) ∧
  (∀ k code, (w.env k).recipe = some code → AOcode code)

/-- A dependency record is benign for context `c` when it either originates
in `c` itself or all its recorded keys are already resolved in its origin
registry (the latter holds for every record the library creates). -/
def goodRec (c : Nat) (w : World) (d : Deps) : Prop :=
  d.c = c ∨ ∀ k' ∈ d.k, isRead w d.c k'

/-- Every dependency record stored anywhere is benign for `c`. -/
def recsOK (c : Nat) (w : World) : Prop :=
  ∀ j r, getReg w j = some r → ∀ k e, r.map k = some e → ∀ d, e.d = some d →
    goodRec c w d

/-- Registries other than `c`'s are untouched. -/
def frameEq (c : Nat) (u v : World) : Prop := ∀ j, j ≠ c → getReg v j = getReg u j

theorem frameEq_refl (c : Nat) (w : World) : frameEq c w w := fun _ _ => rfl

theorem frameEq_trans {c : Nat} {u v x : World} (h₁ : frameEq c u v) (h₂ : frameEq c v x) :
    frameEq c u x := fun j hj => (h₂ j hj).trans (h₁ j hj)

theorem frameEq_updE (c : Nat) (w : World) (k : Key) (e : Entry) :
    frameEq c w (updE w c k e) := fun j hj => getReg_updE_ne w c k e j hj

/-- The combined precondition of the frame induction. -/
def Preds (c : Nat) (w : World) : Prop := AOw w ∧ recsOK c w ∧ normalCtx w c

theorem getReg_congr {u v : World} (h : v.regs = u.regs) (j : Nat) :
    getReg v j = getReg u j := by unfold getReg; rw [h]

theorem lookupE_congr {u v : World} (h : v.regs = u.regs) (j : Nat) (k : Key) :
    lookupE v j k = lookupE u j k := by unfold lookupE; rw [getReg_congr h]

theorem isRead_congr {u v : World} (h : v.regs = u.regs) (j : Nat) (k : Key) :
    isRead v j k ↔ isRead u j k := by unfold isRead; rw [lookupE_congr h]

theorem Preds_congr {c : Nat} {u v : World} (hr : v.regs = u.regs) (he : v.env = u.env)
    (h : Preds c u) : Preds c v := by
  obtain ⟨⟨hao, haoe⟩, hrec, hn⟩ := h
  refine ⟨⟨?_, ?_⟩, ?_, ?_⟩
  · intro j r hj k e hk
    exact hao j r (by rw [← getReg_congr hr]; exact hj) k e hk
  · intro k code hk
    rw [he] at hk
    exact haoe k code hk
  · intro j r hj k e hk d hd
    have := hrec j r (by rw [← getReg_congr hr]; exact hj) k e hk d hd
    rcases this with h₁ | h₁
    · exact Or.inl h₁
    · exact Or.inr fun k' hk' => (isRead_congr hr _ _).2 (h₁ k' hk')
  · obtain ⟨r, p, h₁, h₂⟩ := hn
    exact ⟨r, p, by rw [getReg_congr hr]; exact h₁, h₂⟩

theorem valStart_regs (w : World) (c : Nat) : (valStart w c).regs = w.regs := rfl
theorem valStart_env (w : World) (c : Nat) : (valStart w c).env = w.env := rfl
theorem facStart_regs (w : World) (c : Nat) : (facStart w c).regs = w.regs := rfl
theorem facStart_env (w : World) (c : Nat) : (facStart w c).env = w.env := rfl
theorem restoreAmb_regs (w w₂ : World) : (restoreAmb w w₂).regs = w₂.regs := rfl
theorem restoreAmb_env (w w₂ : World) : (restoreAmb w w₂).env = w₂.env := rfl
theorem bump_regs (w : World) : (bump w).regs = w.regs := rfl
theorem bump_env (w : World) : (bump w).env = w.env := rfl
theorem pushUsed_env (w : World) (k : Key) : (pushUsed w k).env = w.env := by
  unfold pushUsed; cases w.used <;> rfl

/-- Updating an entry of `c`'s registry preserves the combined invariant,
provided the new entry's payload and record are themselves benign. -/
theorem Preds_updE {c : Nat} {w : World} (k : Key) (e' : Entry) (h : Preds c w)
    (h₁ : (e'.s = .hasFactory ∨ e'.s = .isCreating) → ∀ fa, e'.v = .fac fa → AOfac fa)
    (h₂ : ∀ d, e'.d = some d → AOfac d.f)
    (h₃ : ∀ d, e'.d = some d → goodRec c w d) :
    Preds c (updE w c k e') := by
  obtain ⟨⟨hao, haoe⟩, hrec, hn⟩ := h
  obtain ⟨r, p, hr, hp⟩ := hn
  refine ⟨⟨?_, ?_⟩, ?_, ?_⟩
  · intro j r' hj k₀ e₀ hk₀
    by_cases hjc : j = c
    · rw [hjc, getReg_updE_self w c k e' r hr] at hj
      cases hj
      simp only at hk₀
      by_cases hkk : k₀ = k
      · rw [if_pos hkk] at hk₀
        cases hk₀
        exact ⟨h₁, h₂⟩
      · rw [if_neg hkk] at hk₀
        exact hao c r hr k₀ e₀ hk₀
    · rw [getReg_updE_ne w c k e' j hjc] at hj
      exact hao j r' hj k₀ e₀ hk₀
  · intro k₀ code hk₀
    rw [updE_env] at hk₀
    exact haoe k₀ code hk₀
  · intro j r' hj k₀ e₀ hk₀ d hd
    have transport : goodRec c w d → goodRec c (updE w c k e') d := by
      intro hg
      rcases hg with hg | hg
      · exact Or.inl hg
      · by_cases hdc : d.c = c
        · exact Or.inl hdc
        · refine Or.inr fun k' hk' => ?_
          obtain ⟨e₁, he₁, hs₁⟩ := hg k' hk'
          exact ⟨e₁, by rw [lookupE_updE_ne_ctx w c k e' d.c k' hdc]; exact he₁, hs₁⟩
    by_cases hjc : j = c
    · rw [hjc, getReg_updE_self w c k e' r hr] at hj
      cases hj
      simp only at hk₀
      by_cases hkk : k₀ = k
      · rw [if_pos hkk] at hk₀
        cases hk₀
        exact transport (h₃ d hd)
      · rw [if_neg hkk] at hk₀
        exact transport (hrec c r hr k₀ e₀ hk₀ d hd)
    · rw [getReg_updE_ne w c k e' j hjc] at hj
      exact transport (hrec j r' hj k₀ e₀ hk₀ d hd)
  · refine ⟨_, p, getReg_updE_self w c k e' r hr, hp⟩

/-- A found inherited entry lives in some registry of the world. -/
theorem findInh_mem (w : World) (k : Key) :
    ∀ fuel p a, findInh w k fuel p = some a →
      ∃ j r, getReg w j = some r ∧ r.map k = some a := by
  intro fuel
  induction fuel with
  | zero => intro p a h; simp [findInh] at h
  | succ n ih =>
      intro p a h
      match p with
      | none => simp [findInh] at h
      | some j =>
          simp only [findInh] at h
          split at h
          · cases h
          · rename_i r hr
            split at h
            · rename_i e he
              cases h
              exact ⟨j, r, hr, he⟩
            · exact ih _ _ h

end ToUse
namespace ToUse

theorem lookupE_eq {w : World} {c : Nat} {k : Key} {e : Entry}
    (h : lookupE w c k = some e) : ∃ r, getReg w c = some r ∧ r.map k = some e := by
  unfold lookupE at h
  split at h
  · exact ⟨_, by assumption, h⟩
  · cases h

theorem frameEq_ofRegs {c : Nat} {u v : World} (h : v.regs = u.regs) : frameEq c u v :=
  fun j _ => getReg_congr h j

/-- Materialising an inherited (or default) entry preserves the combined
invariant. -/
theorem Preds_materialize {c : Nat} {w : World} (p : Option Nat) (k : Key)
    (h : Preds c w) : Preds c (updE w c k (materialize w p k)) := by
  have hao := h.1
  have hrec := h.2.1
  unfold materialize
  split
  · rename_i a ha
    obtain ⟨j, r, hj, hm⟩ := findInh_mem w k _ _ _ ha
    have hconds := hao.1 j r hj k a hm
    refine Preds_updE k _ h ?_ ?_ ?_
    · intro hs fa hv
      unfold inheritEntry at hs hv
      simp only at hs hv
      by_cases hwr : a.s = .wasRead
      · rw [if_pos hwr] at hs
        rcases hs with hs | hs <;> cases hs
      · rw [if_neg hwr] at hs
        exact hconds.1 hs fa hv
    · intro d hd
      unfold inheritEntry at hd
      simp only at hd
      exact hconds.2 d hd
    · intro d hd
      unfold inheritEntry at hd
      simp only at hd
      exact hrec j r hj k a hm d hd
  · refine Preds_updE k _ h ?_ ?_ ?_
    · intro _ fa hv
      cases hv
      trivial
    · intro d hd
      cases hd
    · intro d hd
      cases hd

/-- `setEntry` writes only `c`'s registry and preserves the invariant when
the written payload is benign. -/
theorem setEntryW_frame {c : Nat} {w : World} (k : Key) (st : EState) (v : Dyn)
    (h : Preds c w)
    (h₁ : (st = .hasFactory ∨ st = .isCreating) → ∀ fa, v = .fac fa → AOfac fa) :
    frameEq c w (setEntryW w c k st v).2 ∧ Preds c (setEntryW w c k st v).2 := by
  unfold setEntryW
  split
  · rename_i e he
    by_cases hs : e.s = .wasRead
    · simp only [hs, if_pos rfl]
      exact ⟨frameEq_ofRegs (bump_regs w), Preds_congr (bump_regs w) (bump_env w) h⟩
    · simp only [if_neg hs]
      exact ⟨frameEq_updE c w k _,
        Preds_updE k _ h h₁ (fun d hd => by cases hd) (fun d hd => by cases hd)⟩
  · exact ⟨frameEq_updE c w k _,
      Preds_updE k _ h h₁ (fun d hd => by cases hd) (fun d hd => by cases hd)⟩

/-- Invoking a context on a key whose local entry is already `wasRead`
returns the cached payload and leaves the registries untouched. -/
theorem invoke_read_inv {o : Nat} {k : Key} {w : World} {r : Reg} {p : Nat} {e : Entry}
    (hr : getReg w o = some r) (hp : r.prev = some p) (hm : r.map k = some e)
    (hs : e.s = .wasRead) :
    ∀ fuel res w', invoke fuel o k w = some (res, w') →
      res = .ok e.v ∧ w'.regs = w.regs ∧ w'.env = w.env ∧ w'.ctx = w.ctx := by
  intro fuel res w' hrun
  match fuel with
  | 0 => cases hrun
  | 1 =>
      rw [invoke_hit 0 o k w r p e hr hp hm] at hrun
      cases hrun
  | n + 2 =>
      rw [invoke_hit (n+1) o k w r p e hr hp hm] at hrun
      have he : lookupE w o k = some e := by
        simp only [lookupE, hr, hm]
      rw [loop_wasRead n o k w e he hs] at hrun
      cases hrun
      refine ⟨rfl, ?_, ?_, ?_⟩ <;>
      · split
        · first
          | exact pushUsed_regs w k
          | exact pushUsed_env w k
          | · unfold pushUsed
              cases w.used <;> rfl
        · rfl

end ToUse
namespace ToUse

theorem isRead_frame {c o : Nat} {u v : World} (hf : frameEq c u v) (ho : o ≠ c)
    (k : Key) (h : isRead u o k) : isRead v o k := by
  obtain ⟨e, he, hs⟩ := h
  refine ⟨e, ?_, hs⟩
  unfold lookupE at he ⊢
  rw [hf o ho]
  exact he

/-- The frame theorem: under the combined invariant (benign records,
ambient-only factories), running the state machine of context `c` never
changes any other context's registry, and the invariant is preserved. -/
theorem framePres : ∀ fuel : Nat,
    (∀ c k w r w', Preds c w → invoke fuel c k w = some (r, w') →
      frameEq c w w' ∧ Preds c w') ∧
    (∀ c k w r w', Preds c w → loop fuel c k w = some (r, w') →
      frameEq c w w' ∧ Preds c w') ∧
    (∀ c k w r w', Preds c w →
      (∀ e fa, lookupE w c k = some e → e.v = .fac fa → AOfac fa) →
      factoryCase fuel c k w = some (r, w') → frameEq c w w' ∧ Preds c w') ∧
    (∀ c fa k w r ks w', Preds c w → AOfac fa →
      execFac fuel c fa k w = some (r, ks, w') → frameEq c w w' ∧ Preds c w') ∧
    (∀ c k w r w', Preds c w → w.ctx = some c →
      defaultLookup fuel c k w = some (r, w') → frameEq c w w' ∧ Preds c w') ∧
    (∀ c code env w r w', Preds c w → AOcode code → w.ctx = some c →
      runCode fuel code env w = some (r, w') → frameEq c w w' ∧ Preds c w') ∧
    (∀ c o ks w r w', Preds c w → w.ctx = some c →
      (∀ k' ∈ ks, o = c ∨ isRead w o k') →
      validate fuel c o ks w = some (r, w') → frameEq c w w' ∧ Preds c w') := by
  intro fuel
  induction fuel using Nat.strong_induction_on with
  | _ fuel ih =>
  match fuel with
  | 0 =>
      refine ⟨fun c k w r w' _ h => ?_, fun c k w r w' _ h => ?_,
        fun c k w r w' _ _ h => ?_, fun c fa k w r ks w' _ _ h => ?_,
        fun c k w r w' _ _ h => ?_, fun c code env w r w' _ _ _ h => ?_,
        fun c o ks w r w' _ _ _ h => ?_⟩ <;>
      simp [invoke, loop, factoryCase, execFac, defaultLookup, runCode, validate] at h
  | n + 1 =>
      obtain ⟨ihInv, ihLoop, ihFac, ihExec, ihDef, ihRun, ihVal⟩ := ih n (Nat.lt_succ_self n)
      refine ⟨?_, ?_, ?_, ?_, ?_, ?_, ?_⟩
      -- invoke
      · intro c k w r w' hP h
        obtain ⟨rn, pn, hrn, hpn⟩ := hP.2.2
        simp only [invoke] at h
        split at h
        · cases h
        · rename_i reg hreg
          rw [hrn] at hreg
          cases hreg
          split at h
          · rename_i hprev
            rw [hpn] at hprev
            cases hprev
          · rename_i p₀ hprev
            split at h
            · exact ihLoop _ _ _ _ _ hP h
            · rename_i hm
              have hstep := Preds_materialize (some p₀) k hP
              obtain ⟨hf, hP'⟩ := ihLoop _ _ _ _ _ hstep h
              exact ⟨frameEq_trans (frameEq_updE c w k _) hf, hP'⟩
      -- loop
      · intro c k w r w' hP h
        simp only [loop] at h
        split at h
        · cases h
        · rename_i e he
          split at h
          · cases h
            split
            · exact ⟨frameEq_ofRegs (pushUsed_regs w k),
                Preds_congr (pushUsed_regs w k) (pushUsed_env w k) hP⟩
            · exact ⟨frameEq_refl c w, hP⟩
          · rename_i hs
            split at h
            · rename_i hd
              have hstep : Preds c (updE w c k { e with s := .wasRead }) := by
                refine Preds_updE k _ hP ?_ ?_ ?_
                · intro hs' fa hv
                  simp only at hs'
                  rcases hs' with hs' | hs' <;> cases hs'
                · intro d hdd
                  simp only [hd] at hdd
                  cases hdd
                · intro d hdd
                  simp only [hd] at hdd
                  cases hdd
              obtain ⟨hf, hP'⟩ := ihLoop _ _ _ _ _ hstep h
              exact ⟨frameEq_trans (frameEq_updE c w k _) hf, hP'⟩
            · rename_i d hd
              obtain ⟨re, hre, hme⟩ := lookupE_eq he
              have hgood : goodRec c w d := hP.2.1 c re hre k e hme d hd
              have hAOdf : AOfac d.f := (hP.1.1 c re hre k e hme).2 d hd
              have hPv : Preds c (valStart w c) :=
                Preds_congr (valStart_regs w c) (valStart_env w c) hP
              have hcond : ∀ k' ∈ d.k, d.c = c ∨ isRead (valStart w c) d.c k' := by
                intro k' hk'
                rcases hgood with hg | hg
                · exact Or.inl hg
                · refine Or.inr ?_
                  have := hg k' hk'
                  obtain ⟨e₁, he₁, hs₁⟩ := this
                  exact ⟨e₁, by rw [lookupE_valStart]; exact he₁, hs₁⟩
              split at h
              · cases h
              · rename_i er w₂ heq
                cases h
                obtain ⟨hf, hP₂⟩ := ihVal _ _ _ _ _ _ hPv rfl hcond heq
                refine ⟨?_, Preds_congr (restoreAmb_regs w w₂) (restoreAmb_env w w₂) hP₂⟩
                intro j hj
                rw [show getReg (restoreAmb w w₂) j = getReg w₂ j from
                  getReg_congr (restoreAmb_regs w w₂) j]
                rw [hf j hj]
                exact getReg_congr (valStart_regs w c) j
              · rename_i w₂ heq
                split at h
                · cases h
                · rename_i e₂ he₂
                  obtain ⟨hf, hP₂⟩ := ihVal _ _ _ _ _ _ hPv rfl hcond heq
                  have hfww₂ : frameEq c w w₂ := by
                    intro j hj
                    rw [hf j hj]
                    exact getReg_congr (valStart_regs w c) j
                  have hPu : Preds c (restoreAmb w w₂) :=
                    Preds_congr (restoreAmb_regs w w₂) (restoreAmb_env w w₂) hP₂
                  have he₂' : lookupE (restoreAmb w w₂) c k = some e₂ := by
                    rw [lookupE_restoreAmb]
                    exact he₂
                  obtain ⟨r₂, hr₂, hm₂⟩ := lookupE_eq he₂'
                  have hstep : Preds c (updE (restoreAmb w w₂) c k { e₂ with s := .wasRead }) := by
                    refine Preds_updE k _ hPu ?_ ?_ ?_
                    · intro hs' fa hv
                      simp only at hs'
                      rcases hs' with hs' | hs' <;> cases hs'
                    · intro d' hd'
                      simp only at hd'
                      exact (hPu.1.1 c r₂ hr₂ k e₂ hm₂).2 d' hd'
                    · intro d' hd'
                      simp only at hd'
                      exact hPu.2.1 c r₂ hr₂ k e₂ hm₂ d' hd'
                  obtain ⟨hf₂, hP'⟩ := ihLoop _ _ _ _ _ hstep h
                  refine ⟨?_, hP'⟩
                  refine frameEq_trans hfww₂ (frameEq_trans ?_ hf₂)
                  intro j hj
                  rw [getReg_updE_ne _ c k _ j hj]
                  exact getReg_congr (restoreAmb_regs w w₂) j
              · rename_i w₂ heq
                split at h
                · cases h
                · rename_i e₂ he₂
                  obtain ⟨hf, hP₂⟩ := ihVal _ _ _ _ _ _ hPv rfl hcond heq
                  have hfww₂ : frameEq c w w₂ := by
                    intro j hj
                    rw [hf j hj]
                    exact getReg_congr (valStart_regs w c) j
                  have hPu : Preds c (restoreAmb w w₂) :=
                    Preds_congr (restoreAmb_regs w w₂) (restoreAmb_env w w₂) hP₂
                  have he₂' : lookupE (restoreAmb w w₂) c k = some e₂ := by
                    rw [lookupE_restoreAmb]
                    exact he₂
                  obtain ⟨r₂, hr₂, hm₂⟩ := lookupE_eq he₂'
                  have hstep : Preds c (updE (restoreAmb w w₂) c k { e₂ with v := .fac d.f }) := by
                    refine Preds_updE k _ hPu ?_ ?_ ?_
                    · intro _ fa hv
                      simp only at hv
                      cases hv
                      exact hAOdf
                    · intro d' hd'
                      simp only at hd'
                      exact (hPu.1.1 c r₂ hr₂ k e₂ hm₂).2 d' hd'
                    · intro d' hd'
                      simp only at hd'
                      exact hPu.2.1 c r₂ hr₂ k e₂ hm₂ d' hd'
                  have hAOvK : ∀ e' fa, lookupE (updE (restoreAmb w w₂) c k { e₂ with v := .fac d.f }) c k = some e' → e'.v = .fac fa → AOfac fa := by
                    intro e' fa he' hv
                    rw [lookupE_updE_self _ c k _ r₂ hr₂] at he'
                    cases he'
                    simp only at hv
                    cases hv
                    exact hAOdf
                  obtain ⟨hf₂, hP'⟩ := ihFac _ _ _ _ _ hstep hAOvK h
                  refine ⟨?_, hP'⟩
                  refine frameEq_trans hfww₂ (frameEq_trans ?_ hf₂)
                  intro j hj
                  rw [getReg_updE_ne _ c k _ j hj]
                  exact getReg_congr (restoreAmb_regs w w₂) j
          · rename_i hs
            obtain ⟨re, hre, hme⟩ := lookupE_eq he
            have hAOvK : ∀ e' fa, lookupE w c k = some e' → e'.v = .fac fa → AOfac fa := by
              intro e' fa he' hv
              rw [he] at he'
              cases he'
              exact (hP.1.1 c re hre k e hme).1 (Or.inl hs) fa hv
            exact ihFac _ _ _ _ _ hP hAOvK h
          · cases h
            exact ⟨frameEq_ofRegs (bump_regs w), Preds_congr (bump_regs w) (bump_env w) hP⟩
          · split at h
            · cases h
              exact ⟨frameEq_refl c w, hP⟩
            · cases h
      -- factoryCase
      · intro c k w r w' hP hAOvK h
        simp only [factoryCase] at h
        split at h
        · cases h
        · rename_i e he
          split at h
          · rename_i fa hv
            have hfa : AOfac fa := hAOvK e fa he hv
            obtain ⟨re, hre, hme⟩ := lookupE_eq he
            have hstep : Preds c (updE w c k { e with s := .isCreating }) := by
              refine Preds_updE k _ hP ?_ ?_ ?_
              · intro _ fa' hv'
                simp only at hv'
                rw [hv] at hv'
                cases hv'
                exact hfa
              · intro d' hd'
                simp only at hd'
                exact (hP.1.1 c re hre k e hme).2 d' hd'
              · intro d' hd'
                simp only at hd'
                exact hP.2.1 c re hre k e hme d' hd'
            have hfstep : frameEq c w (updE w c k { e with s := .isCreating }) :=
              frameEq_updE c w k _
            split at h
            · cases h
            · rename_i er ks₂ w₂ heq
              cases h
              obtain ⟨hf₂, hP₂⟩ := ihExec _ _ _ _ _ _ _ hstep hfa heq
              refine ⟨frameEq_trans hfstep (frameEq_trans hf₂ (frameEq_updE c w₂ k _)), ?_⟩
              refine Preds_updE k _ hP₂ ?_ ?_ ?_
              · intro hs' fa' hv'
                rcases hs' with hs' | hs' <;> cases hs'
              · intro d' hd'
                cases hd'
              · intro d' hd'
                cases hd'
            · rename_i v ks₂ w₂ heq
              obtain ⟨hf₂, hP₂⟩ := ihExec _ _ _ _ _ _ _ hstep hfa heq
              have hcomp : frameEq c w w₂ := frameEq_trans hfstep hf₂
              obtain ⟨hf₃, hP₃⟩ := setEntryW_frame k .wasRead v hP₂
                (fun hst _ hv' => by rcases hst with hst | hst <;> cases hst)
              split at h
              · rename_i er w₃ heq₂
                cases h
                rw [heq₂] at hf₃ hP₃
                refine ⟨frameEq_trans hcomp (frameEq_trans hf₃ (frameEq_updE c w₃ k _)), ?_⟩
                refine Preds_updE k _ hP₃ ?_ ?_ ?_
                · intro hs' fa' hv'
                  rcases hs' with hs' | hs' <;> cases hs'
                · intro d' hd'
                  cases hd'
                · intro d' hd'
                  cases hd'
              · rename_i w₃ heq₂
                rw [heq₂] at hf₃ hP₃
                simp only at hf₃ hP₃
                have hcomp₃ : frameEq c w w₃ := frameEq_trans hcomp hf₃
                split at h
                · obtain ⟨hf₄, hP₄⟩ := ihLoop _ _ _ _ _ hP₃ h
                  exact ⟨frameEq_trans hcomp₃ hf₄, hP₄⟩
                · split at h
                  · cases h
                  · rename_i e₃ he₃
                    obtain ⟨r₃, hr₃, hm₃⟩ := lookupE_eq he₃
                    have hstep₃ : Preds c (updE w₃ c k { e₃ with d := some ⟨c, ks₂, fa⟩ }) := by
                      refine Preds_updE k _ hP₃ ?_ ?_ ?_
                      · intro hs' fa' hv'
                        simp only at hs' hv'
                        exact (hP₃.1.1 c r₃ hr₃ k e₃ hm₃).1 hs' fa' hv'
                      · intro d' hd'
                        simp only at hd'
                        cases hd'
                        exact hfa
                      · intro d' hd'
                        simp only at hd'
                        cases hd'
                        exact Or.inl rfl
                    obtain ⟨hf₄, hP₄⟩ := ihLoop _ _ _ _ _ hstep₃ h
                    exact ⟨frameEq_trans hcomp₃
                      (frameEq_trans (frameEq_updE c w₃ k _) hf₄), hP₄⟩
          · cases h
      -- execFac
      · intro c fa k w r ks w' hP hfa h
        simp only [execFac] at h
        split at h
        · cases h
        · rename_i r₂ w₂ heq
          cases h
          have hPf : Preds c (facStart w c) :=
            Preds_congr (facStart_regs w c) (facStart_env w c) hP
          have hbody : frameEq c (facStart w c) w₂ ∧ Preds c w₂ := by
            split at heq
            · rename_i fid code
              exact ihRun _ _ _ _ _ _ hPf hfa rfl heq
            · exact ihDef _ _ _ _ _ hPf rfl heq
          obtain ⟨hf, hP₂⟩ := hbody
          refine ⟨?_, Preds_congr (restoreAmb_regs w w₂) (restoreAmb_env w w₂) hP₂⟩
          intro j hj
          rw [show getReg (restoreAmb w w₂) j = getReg w₂ j from
            getReg_congr (restoreAmb_regs w w₂) j]
          rw [hf j hj]
          exact getReg_congr (facStart_regs w c) j
      -- defaultLookup
      · intro c k w r w' hP hctx h
        simp only [defaultLookup] at h
        split at h
        · rename_i code hcode
          exact ihRun _ _ _ _ _ _ hP (hP.1.2 _ _ hcode) hctx h
        · split at h
          · cases h
            exact ⟨frameEq_ofRegs (bump_regs w), Preds_congr (bump_regs w) (bump_env w) hP⟩
          · cases h
            exact ⟨frameEq_ofRegs (bump_regs w), Preds_congr (bump_regs w) (bump_env w) hP⟩
      -- runCode
      · intro c code env w r w' hP hAO hctx h
        simp only [runCode] at h
        split at h
        · cases h
          exact ⟨frameEq_refl c w, hP⟩
        · split at h
          · cases h
            exact ⟨frameEq_refl c w, hP⟩
          · cases h
        · cases h
          exact ⟨frameEq_ofRegs (bump_regs w), Preds_congr (bump_regs w) (bump_env w) hP⟩
        · cases h
          exact ⟨frameEq_ofRegs (bump_regs w), Preds_congr (bump_regs w) (bump_env w) hP⟩
        · split at h
          · cases h
            exact ⟨frameEq_ofRegs (bump_regs w), Preds_congr (bump_regs w) (bump_env w) hP⟩
          · rename_i c' hc'
            rw [hctx] at hc'
            cases hc'
            exact ihInv _ _ _ _ _ hP h
        · exact absurd hAO (by simp [AOcode])
        · obtain ⟨hAOa, hAOb⟩ := hAO
          split at h
          · cases h
          · rename_i er w₁ heq
            cases h
            exact ihRun _ _ _ _ _ _ hP hAOa hctx heq
          · rename_i d w₁ heq
            obtain ⟨hf₁, hP₁⟩ := ihRun _ _ _ _ _ _ hP hAOa hctx heq
            have hctx₁ : w₁.ctx = some c := by
              have := ((ambPres n).2.2.2.2.2.1) _ _ _ _ _ heq
              rw [this.1, hctx]
            obtain ⟨hf₂, hP₂⟩ := ihRun _ _ _ _ _ _ hP₁ hAOb hctx₁ h
            exact ⟨frameEq_trans hf₁ hf₂, hP₂⟩
      -- validate
      · intro c o ks w r w' hP hctx hks h
        match ks with
        | [] =>
            rw [validate_nil] at h
            cases h
            exact ⟨frameEq_refl c w, hP⟩
        | k :: ks' =>
            rw [validate_cons] at h
            split at h
            · cases h
            · rename_i er w₁ heq
              cases h
              exact ihInv _ _ _ _ _ hP heq
            · rename_i v₁ w₁ heq₁
              obtain ⟨hf₁, hP₁⟩ := ihInv _ _ _ _ _ hP heq₁
              have hctx₁ : w₁.ctx = some c := by
                have := ((ambPres n).1) _ _ _ _ _ heq₁
                rw [this.1, hctx]
              have hstep₂ : ∀ res₂ w₂, invoke n o k w₁ = some (res₂, w₂) →
                  frameEq c w₁ w₂ ∧ Preds c w₂ := by
                intro res₂ w₂ heq₂
                by_cases hoc : o = c
                · rw [hoc] at heq₂
                  exact ihInv _ _ _ _ _ hP₁ heq₂
                · have hrd : isRead w o k := by
                    rcases hks k (List.mem_cons_self k ks') with hg | hg
                    · exact absurd hg hoc
                    · exact hg
                  have hrd₁ : isRead w₁ o k := isRead_frame hf₁ hoc k hrd
                  obtain ⟨e₁, he₁, hs₁⟩ := hrd₁
                  obtain ⟨r₁, hr₁, hm₁⟩ := lookupE_eq he₁
                  cases hrp : r₁.prev with
                  | some p₁ =>
                      have := invoke_read_inv hr₁ hrp hm₁ hs₁ n res₂ w₂ heq₂
                      exact ⟨frameEq_ofRegs this.2.1,
                        Preds_congr this.2.1 this.2.2.1 hP₁⟩
                  | none =>
                      match n, heq₂ with
                      | m + 1, heq₂ =>
                          rw [invoke_global_delegate m o k w₁ r₁ c hr₁ hrp hctx₁] at heq₂
                          exact (ih m (by omega)).1 _ _ _ _ _ hP₁ heq₂
              split at h
              · cases h
              · rename_i er w₂ heq₂
                cases h
                obtain ⟨hf₂, hP₂⟩ := hstep₂ _ _ heq₂
                exact ⟨frameEq_trans hf₁ hf₂, hP₂⟩
              · rename_i v₂ w₂ heq₂
                obtain ⟨hf₂, hP₂⟩ := hstep₂ _ _ heq₂
                have hf₁₂ : frameEq c w w₂ := frameEq_trans hf₁ hf₂
                have hctx₂ : w₂.ctx = some c := by
                  have := ((ambPres n).1) _ _ _ _ _ heq₂
                  rw [this.1, hctx₁]
                have hks₂ : ∀ k' ∈ ks', o = c ∨ isRead w₂ o k' := by
                  intro k' hk'
                  rcases hks k' (List.mem_cons_of_mem k hk') with hg | hg
                  · exact Or.inl hg
                  · by_cases hoc : o = c
                    · exact Or.inl hoc
                    · exact Or.inr (isRead_frame hf₁₂ hoc k' hg)
                split at h
                · obtain ⟨hf₃, hP₃⟩ := ihVal _ _ _ _ _ _ hP₂ hctx₂ hks₂ h
                  exact ⟨frameEq_trans hf₁₂ hf₃, hP₃⟩
                · cases h
                  exact ⟨hf₁₂, hP₂⟩

end ToUse
namespace ToUse

/-! ## Registry shape is stable: runs only rewrite entries -/

/-- Parent links (and presence) of every registry are untouched by runs. -/
def shapeOK (u v : World) : Prop :=
  ∀ j, (getReg v j).map Reg.prev = (getReg u j).map Reg.prev

theorem shapeOK_refl (w : World) : shapeOK w w := fun _ => rfl

theorem shapeOK_trans {u v x : World} (h₁ : shapeOK u v) (h₂ : shapeOK v x) :
    shapeOK u x := fun j => (h₂ j).trans (h₁ j)

theorem shapeOK_updE (w : World) (c : Nat) (k : Key) (e : Entry) :
    shapeOK w (updE w c k e) := fun j => updE_prev w c k e j

theorem shapeOK_ofRegs {u v : World} (h : v.regs = u.regs) : shapeOK u v :=
  fun j => by rw [getReg_congr h]

theorem shapeOK_setEntryW (w : World) (c : Nat) (k : Key) (st : EState) (v : Dyn) :
    shapeOK w (setEntryW w c k st v).2 := by
  unfold setEntryW
  split
  · rename_i e he
    by_cases hs : e.s = .wasRead
    · simp only [hs, if_pos rfl]
      exact shapeOK_ofRegs (bump_regs w)
    · simp only [if_neg hs]
      exact shapeOK_updE w c k _
  · exact shapeOK_updE w c k _

theorem shapePres : ∀ fuel : Nat,
    (∀ c k w r w', invoke fuel c k w = some (r, w') → shapeOK w w') ∧
    (∀ c k w r w', loop fuel c k w = some (r, w') → shapeOK w w') ∧
    (∀ c k w r w', factoryCase fuel c k w = some (r, w') → shapeOK w w') ∧
    (∀ c fa k w r ks w', execFac fuel c fa k w = some (r, ks, w') → shapeOK w w') ∧
    (∀ c k w r w', defaultLookup fuel c k w = some (r, w') → shapeOK w w') ∧
    (∀ code env w r w', runCode fuel code env w = some (r, w') → shapeOK w w') ∧
    (∀ c o ks w r w', validate fuel c o ks w = some (r, w') → shapeOK w w') := by
  intro fuel
  induction fuel with
  | zero =>
      refine ⟨fun c k w r w' h => ?_, fun c k w r w' h => ?_, fun c k w r w' h => ?_,
        fun c fa k w r ks w' h => ?_, fun c k w r w' h => ?_, fun code env w r w' h => ?_,
        fun c o ks w r w' h => ?_⟩ <;>
      simp [invoke, loop, factoryCase, execFac, defaultLookup, runCode, validate] at h
  | succ n ih =>
      obtain ⟨ihInv, ihLoop, ihFac, ihExec, ihDef, ihRun, ihVal⟩ := ih
      refine ⟨?_, ?_, ?_, ?_, ?_, ?_, ?_⟩
      -- invoke
      · intro c k w r w' h
        simp only [invoke] at h
        split at h
        · cases h
        · split at h
          · split at h
            · cases h
              exact shapeOK_ofRegs (bump_regs w)
            · exact ihInv _ _ _ _ _ h
          · split at h
            · exact ihLoop _ _ _ _ _ h
            · exact shapeOK_trans (shapeOK_updE w c k _) (ihLoop _ _ _ _ _ h)
      -- loop
      · intro c k w r w' h
        simp only [loop] at h
        split at h
        · cases h
        · split at h
          · cases h
            split
            · exact shapeOK_ofRegs (pushUsed_regs w k)
            · exact shapeOK_refl w
          · split at h
            · exact shapeOK_trans (shapeOK_updE w c k _) (ihLoop _ _ _ _ _ h)
            · split at h
              · cases h
              · rename_i er w₂ heq
                cases h
                exact shapeOK_trans (shapeOK_ofRegs (valStart_regs w c))
                  (shapeOK_trans (ihVal _ _ _ _ _ _ heq)
                    (shapeOK_ofRegs (restoreAmb_regs w w₂)))
              · rename_i w₂ heq
                split at h
                · cases h
                · have h₁ := shapeOK_trans (shapeOK_ofRegs (valStart_regs w c))
                    (ihVal _ _ _ _ _ _ heq)
                  have h₂ := shapeOK_ofRegs (restoreAmb_regs w w₂)
                  exact shapeOK_trans (shapeOK_trans h₁ h₂)
                    (shapeOK_trans (shapeOK_updE _ c k _) (ihLoop _ _ _ _ _ h))
              · rename_i w₂ heq
                split at h
                · cases h
                · have h₁ := shapeOK_trans (shapeOK_ofRegs (valStart_regs w c))
                    (ihVal _ _ _ _ _ _ heq)
                  have h₂ := shapeOK_ofRegs (restoreAmb_regs w w₂)
                  exact shapeOK_trans (shapeOK_trans h₁ h₂)
                    (shapeOK_trans (shapeOK_updE _ c k _) (ihFac _ _ _ _ _ h))
          · exact ihFac _ _ _ _ _ h
          · cases h
            exact shapeOK_ofRegs (bump_regs w)
          · split at h
            · cases h
              exact shapeOK_refl w
            · cases h
      -- factoryCase
      · intro c k w r w' h
        simp only [factoryCase] at h
        split at h
        · cases h
        · split at h
          · split at h
            · cases h
            · rename_i er ks w₂ heq
              cases h
              exact shapeOK_trans (shapeOK_updE w c k _)
                (shapeOK_trans (ihExec _ _ _ _ _ _ _ heq) (shapeOK_updE w₂ c k _))
            · rename_i v ks w₂ heq
              have h₁ := shapeOK_trans (shapeOK_updE w c k _) (ihExec _ _ _ _ _ _ _ heq)
              split at h
              · rename_i er w₃ heq₂
                cases h
                have h₂ := shapeOK_setEntryW w₂ c k .wasRead v
                rw [heq₂] at h₂
                exact shapeOK_trans h₁ (shapeOK_trans h₂ (shapeOK_updE w₃ c k _))
              · rename_i w₃ heq₂
                have h₂ := shapeOK_setEntryW w₂ c k .wasRead v
                rw [heq₂] at h₂
                have h₁₂ := shapeOK_trans h₁ h₂
                split at h
                · exact shapeOK_trans h₁₂ (ihLoop _ _ _ _ _ h)
                · split at h
                  · cases h
                  · exact shapeOK_trans h₁₂
                      (shapeOK_trans (shapeOK_updE w₃ c k _) (ihLoop _ _ _ _ _ h))
          · cases h
      -- execFac
      · intro c fa k w r ks w' h
        simp only [execFac] at h
        split at h
        · cases h
        · rename_i r₂ w₂ heq
          cases h
          have hbody : shapeOK (facStart w c) w₂ := by
            split at heq
            · exact ihRun _ _ _ _ _ heq
            · exact ihDef _ _ _ _ _ heq
          exact shapeOK_trans (shapeOK_ofRegs (facStart_regs w c))
            (shapeOK_trans hbody (shapeOK_ofRegs (restoreAmb_regs w w₂)))
      -- defaultLookup
      · intro c k w r w' h
        simp only [defaultLookup] at h
        split at h
        · exact ihRun _ _ _ _ _ h
        · split at h
          · cases h
            exact shapeOK_ofRegs (bump_regs w)
          · cases h
            exact shapeOK_ofRegs (bump_regs w)
      -- runCode
      · intro code env w r w' h
        simp only [runCode] at h
        split at h
        · cases h
          exact shapeOK_refl w
        · split at h
          · cases h
            exact shapeOK_refl w
          · cases h
        · cases h
          exact shapeOK_ofRegs (bump_regs w)
        · cases h
          exact shapeOK_ofRegs (bump_regs w)
        · split at h
          · cases h
            exact shapeOK_ofRegs (bump_regs w)
          · exact ihInv _ _ _ _ _ h
        · exact ihInv _ _ _ _ _ h
        · split at h
          · cases h
          · rename_i er w₁ heq
            cases h
            exact ihRun _ _ _ _ _ heq
          · rename_i d w₁ heq
            exact shapeOK_trans (ihRun _ _ _ _ _ heq) (ihRun _ _ _ _ _ h)
      -- validate
      · intro c o ks w r w' h
        match ks with
        | [] =>
            rw [validate_nil] at h
            cases h
            exact shapeOK_refl w
        | k :: ks' =>
            rw [validate_cons] at h
            split at h
            · cases h
            · rename_i er w₁ heq
              cases h
              exact ihInv _ _ _ _ _ heq
            · rename_i v₁ w₁ heq₁
              split at h
              · cases h
              · rename_i er w₂ heq₂
                cases h
                exact shapeOK_trans (ihInv _ _ _ _ _ heq₁) (ihInv _ _ _ _ _ heq₂)
              · rename_i v₂ w₂ heq₂
                have h₁₂ := shapeOK_trans (ihInv _ _ _ _ _ heq₁) (ihInv _ _ _ _ _ heq₂)
                split at h
                · exact shapeOK_trans h₁₂ (ihVal _ _ _ _ _ _ h)
                · cases h
                  exact h₁₂

theorem normalCtx_of_shape {c : Nat} {u v : World} (h : shapeOK u v)
    (hn : normalCtx u c) : normalCtx v c := by
  obtain ⟨r, p, hr, hp⟩ := hn
  have := h c
  rw [hr] at this
  cases hv : getReg v c with
  | none => rw [hv] at this; cases this
  | some r' =>
      rw [hv] at this
      have hpp : r'.prev = r.prev := by simpa using this
      exact ⟨r', p, hv, by rw [hpp, hp]⟩

end ToUse
namespace ToUse

/-! ## Dependency validation resolves the keys it touches -/

/-- A completed validation pass leaves every dependency key it reached fully
resolved (`wasRead`) in the child context: all of them when it returns
`true`, and the keys up to and including the first mismatch when it returns
`false`. -/
theorem validate_reads : ∀ fuel c o ks w b w',
    normalCtx w c → validate fuel c o ks w = some (.ok b, w') →
    (b = true → ∀ k ∈ ks, isRead w' c k) ∧
    (b = false → ∃ pre k₀ post, ks = pre ++ k₀ :: post ∧
      ∀ k ∈ pre ++ [k₀], isRead w' c k) := by
  intro fuel
  induction fuel with
  | zero =>
      intro c o ks w b w' _ h
      simp [validate] at h
  | succ n ih =>
      intro c o ks w b w' hn h
      match ks with
      | [] =>
          rw [validate_nil] at h
          cases h
          exact ⟨fun _ k hk => absurd hk (List.not_mem_nil k),
            fun hb => by cases hb⟩
      | k :: ks' =>
          rw [validate_cons] at h
          split at h
          · cases h
          · simp at h
          · rename_i v₁ w₁ heq₁
            obtain ⟨r, p, hr, hp⟩ := id hn
            obtain ⟨e, he, hes, hev⟩ := (okRead n).2.2 c k w v₁ w₁ r p hr hp heq₁
            split at h
            · cases h
            · simp at h
            · rename_i v₂ w₂ heq₂
              have hrd₂ : isRead w₂ c k :=
                ⟨e, (wpPres n).1 _ _ _ _ _ heq₂ c k e he hes, hes⟩
              have hshape₁₂ : shapeOK w w₂ :=
                shapeOK_trans ((shapePres n).1 _ _ _ _ _ heq₁)
                  ((shapePres n).1 _ _ _ _ _ heq₂)
              split at h
              · -- values matched: recurse
                have hn₂ : normalCtx w₂ c := normalCtx_of_shape hshape₁₂ hn
                obtain ⟨ihT, ihF⟩ := ih c o ks' w₂ b w' hn₂ h
                have hrd' : isRead w' c k := by
                  obtain ⟨e', he', hs'⟩ := hrd₂
                  exact ⟨e', (wpPres n).2.2.2.2.2.2 _ _ _ _ _ _ h c k e' he' hs', hs'⟩
                refine ⟨?_, ?_⟩
                · intro hb k'' hk''
                  rcases List.mem_cons.1 hk'' with hk'' | hk''
                  · rw [hk'']
                    exact hrd'
                  · exact ihT hb k'' hk''
                · intro hb
                  obtain ⟨pre, k₀, post, hdec, hreads⟩ := ihF hb
                  refine ⟨k :: pre, k₀, post, by rw [hdec, List.cons_append], ?_⟩
                  intro x hx
                  rcases List.mem_cons.1 hx with hx | hx
                  · rw [hx]
                    exact hrd'
                  · exact hreads x hx
              · -- mismatch: short-circuit false
                cases h
                constructor
                · intro hb
                  cases hb
                · intro _
                  refine ⟨[], k, ks', rfl, ?_⟩
                  intro x hx
                  simp only [List.nil_append, List.mem_singleton] at hx
                  rw [hx]
                  exact hrd₂

end ToUse
namespace ToUse

/-! ## Concrete scenario material -/

/-- Key metadata with no recipes and no class-like keys. -/
def envNone : Key → KeyInfo := fun _ => ⟨none, false⟩

/-- The initial world: only the global defaults registry, no ambient
context, no active log. -/
def w0 : World := ⟨[⟨none, fun _ => none⟩], none, none, 0, envNone, 0, 0⟩

/-- A single-key registry map. -/
def oneKey (k : Key) (e : Entry) : Key → Option Entry :=
  fun k' => if k' = k then some e else none

/-! ## C2 — idempotence of lookup -/

theorem pushUsed_counter (w : World) (k : Key) : (pushUsed w k).counter = w.counter := by
  unfold pushUsed; cases w.used <;> rfl

theorem pushUsed_facRuns (w : World) (k : Key) : (pushUsed w k).facRuns = w.facRuns := by
  unfold pushUsed; cases w.used <;> rfl

theorem pushUsed_valRuns (w : World) (k : Key) : (pushUsed w k).valRuns = w.valRuns := by
  unfold pushUsed; cases w.used <;> rfl

/-- A factory whose body explicitly invokes the already-existing fork
(context 2) on its own key, so the fork materialises a copy of the parent's
entry while that entry is still `isCreating`. -/
def facStuck : Factory := .user 1 (.useC 2 3)

/-- Scenario: context 1 (a regular context under the global registry 0)
defines key 3 with `facStuck`; context 2 is an already-created fork of
context 1 with an empty registry. -/
def w_stuck : World :=
  ⟨[⟨none, fun _ => none⟩,
    ⟨some 0, oneKey 3 ⟨.hasFactory, .fac facStuck, none⟩⟩,
    ⟨some 1, fun _ => none⟩],
   none, none, 0, envNone, 0, 0⟩

/-- Counterexample to C2 as stated.  Resolving key 3 in context 1 runs
`facStuck`, which invokes the fork (context 2) on the same key mid-resolution;
the fork copies the parent's `isCreating` entry (`s: entry.s || hasValue`
keeps `isCreating`) and raises the cycle error with allocation id 0 — the
fork's FIRST, failing, resolution of the key.  That `isCreating` copy
persists in the fork's registry, and the `isCreating` arm caches nothing: the
two subsequent `invoke`s of the fork on the key raise FRESH error objects
with allocation ids 1 and 2 — not identical (`dEq` is `false`, ids differ) —
while the fork's entry stays `isCreating` and no factory runs again,
refuting "re-raises the identical cached error object if the first
resolution failed". -/
theorem lookup_not_idempotent_when_creating :
    ((invoke 9 1 3 w_stuck).map (fun p => p.1))
      = some (.error (.mk 0 (.cyc (.fac facStuck) 3))) ∧
    (((invoke 9 1 3 w_stuck).bind (fun p => invoke 9 2 3 p.2)).map (fun p => p.1))
      = some (.error (.mk 1 (.cyc (.fac facStuck) 3))) ∧
    ((((invoke 9 1 3 w_stuck).bind (fun p => invoke 9 2 3 p.2)).bind
        (fun p => invoke 9 2 3 p.2)).map (fun p => p.1))
      = some (.error (.mk 2 (.cyc (.fac facStuck) 3))) ∧
    dEq (.err (.mk 1 (.cyc (.fac facStuck) 3)))
        (.err (.mk 2 (.cyc (.fac facStuck) 3))) = false ∧
    ((((invoke 9 1 3 w_stuck).bind (fun p => invoke 9 2 3 p.2)).bind
        (fun p => invoke 9 2 3 p.2)).map
      (fun p => ((lookupE p.2 2 3).map Entry.s, p.2.facRuns)))
      = some (some .isCreating, 1) := by
  exact ⟨rfl, rfl, rfl, rfl, rfl⟩

/-- C2 (amended).  Idempotence of lookup: every successful resolution leaves
the key's entry cached as `wasRead` holding exactly the returned value, after
which every further `invoke` returns that identical cached payload without
touching any registry, without allocating, and without running any factory;
once a resolution has failed *and the failure was cached* (entry `hasError`
holding the error object), every further `invoke` re-raises that identical
error object with the world completely unchanged; but an entry persisted in
state `isCreating` (a mid-resolution copy inherited into a fork) is NOT
idempotent: each `invoke` allocates and raises a fresh cycle error — `mkErr`
at the current counter, which `bump` then advances, so successive calls
raise distinct objects — and caches nothing (`bump` leaves every registry
unchanged). -/
theorem lookup_idempotent :
    (∀ fuel c k w v w' r p, getReg w c = some r → r.prev = some p →
      invoke fuel c k w = some (.ok v, w') →
      ∃ e, lookupE w' c k = some e ∧ e.s = .wasRead ∧ e.v = v) ∧
    (∀ fuel c k w r p e, getReg w c = some r → r.prev = some p →
      r.map k = some e → e.s = .wasRead →
      ∃ w', invoke (fuel + 2) c k w = some (.ok e.v, w') ∧
        w'.regs = w.regs ∧ w'.counter = w.counter ∧ w'.facRuns = w.facRuns) ∧
    (∀ fuel c k w r p e er, getReg w c = some r → r.prev = some p →
      r.map k = some e → e.s = .hasError → e.v = .err er →
      invoke (fuel + 2) c k w = some (.error er, w)) ∧
    (∀ fuel c k w r p e, getReg w c = some r → r.prev = some p →
      r.map k = some e → e.s = .isCreating →
      invoke (fuel + 2) c k w = some (.error (mkErr w (.cyc e.v k)), bump w)) := by
  refine ⟨?_, ?_, ?_, ?_⟩
  · intro fuel c k w v w' r p hr hp h
    exact (okRead fuel).2.2 c k w v w' r p hr hp h
  · intro fuel c k w r p e hr hp hm hs
    have he : lookupE w c k = some e := by simp only [lookupE, hr, hm]
    rw [invoke_hit (fuel + 1) c k w r p e hr hp hm, loop_wasRead fuel c k w e he hs]
    refine ⟨_, rfl, ?_, ?_, ?_⟩ <;>
    · split
      · first
        | exact pushUsed_regs w k
        | exact pushUsed_counter w k
        | exact pushUsed_facRuns w k
      · rfl
  · intro fuel c k w r p e er hr hp hm hs hv
    have he : lookupE w c k = some e := by simp only [lookupE, hr, hm]
    rw [invoke_hit (fuel + 1) c k w r p e hr hp hm, loop_hasError fuel c k w e er he hs hv]
  · intro fuel c k w r p e hr hp hm hs
    have he : lookupE w c k = some e := by simp only [lookupE, hr, hm]
    rw [invoke_hit (fuel + 1) c k w r p e hr hp hm, loop_isCreating fuel c k w e he hs]

/-- Scenario: a regular context (index 1) whose registry caches key 3 as a
read value and key 4 as a cached error. -/
def w_idem : World :=
  ⟨[⟨none, fun _ => none⟩,
    ⟨some 0, fun k => if k = 3 then some ⟨.wasRead, .val 11, none⟩
      else if k = 4 then some ⟨.hasError, .err (.mk 6 (.user 1)), none⟩ else none⟩],
   none, none, 7, envNone, 2, 2⟩

/-- A fork (context 2) left holding a persisted `isCreating` copy for key 3
after `facStuck` failed, with the failure cached `hasError` in the parent. -/
def w_creating : World :=
  ⟨[⟨none, fun _ => none⟩,
    ⟨some 0, oneKey 3 ⟨.hasError, .err (.mk 0 (.cyc (.fac facStuck) 3)), none⟩⟩,
    ⟨some 1, oneKey 3 ⟨.isCreating, .fac facStuck, none⟩⟩],
   none, none, 5, envNone, 1, 0⟩

/-- Witness for C2 at concrete registries: repeated lookups return the
identical cached value (and re-raise the identical cached error) with the
registries untouched, while a persisted `isCreating` entry raises a fresh
cycle error at the current allocation counter (here 5), advancing it. -/
theorem lookup_idempotent_witness :
    (∃ w', invoke 7 1 3 w_idem = some (.ok (.val 11), w') ∧
      w'.regs = w_idem.regs ∧ w'.counter = w_idem.counter ∧ w'.facRuns = w_idem.facRuns) ∧
    invoke 7 1 4 w_idem = some (.error (.mk 6 (.user 1)), w_idem) ∧
    invoke 7 2 3 w_creating
      = some (.error (.mk 5 (.cyc (.fac facStuck) 3)), bump w_creating) := by
  refine ⟨?_, ?_, ?_⟩
  · exact lookup_idempotent.2.1 5 1 3 w_idem _ 0 ⟨.wasRead, .val 11, none⟩ rfl rfl rfl rfl
  · exact lookup_idempotent.2.2.1 5 1 4 w_idem _ 0 ⟨.hasError, .err (.mk 6 (.user 1)), none⟩
      (.mk 6 (.user 1)) rfl rfl rfl rfl rfl
  · exact lookup_idempotent.2.2.2 5 2 3 w_creating _ 1
      ⟨.isCreating, .fac facStuck, none⟩ rfl rfl rfl rfl

end ToUse
namespace ToUse

/-! ## C3 — write-after-read rejection (corrected: only a successful read blocks) -/

/-- A regular context whose key 5 carries a factory that throws. -/
def w_failKey : World :=
  ⟨[⟨none, fun _ => none⟩,
    ⟨some 0, oneKey 5 ⟨.hasFactory, .fac (.user 1 (.fail 9)), none⟩⟩],
   none, none, 0, envNone, 0, 0⟩

/-- Counterexample to C3 as stated: after `invoke` FAILS on key 5 (the entry
is cached in state `hasError`), a subsequent `set` does NOT raise the
`Already read` error — it succeeds and overwrites the cached error.  The
`setEntry` guard `if (!entry.s) throw` only fires for the falsy state
`wasRead`, i.e. after a successful read. -/
theorem write_after_failed_allowed :
    (invoke 9 1 5 w_failKey).map (fun p => p.1.isOk) = some false ∧
    (invoke 9 1 5 w_failKey).map
      (fun p => (lookupE p.2 1 5).map Entry.s) = some (some .hasError) ∧
    (invoke 9 1 5 w_failKey).map
      (fun p => (doSet p.2 1 5 (.val 3)).1.isOk) = some true ∧
    (invoke 9 1 5 w_failKey).map
      (fun p => (doDef p.2 1 5 (.user 2 .fresh)).1.isOk) = some true := by
  exact ⟨rfl, rfl, rfl, rfl⟩

/-- C3 (amended).  Writes are rejected exactly after a *successful* read:
once `C.invoke(K)` has succeeded in `C`'s own registry (entry `wasRead`),
every subsequent `def`/`set` on that key raises the `Already read` usage
error and leaves every registry unchanged; before the first read — and
after a *failed* resolution (entry `hasError`) — `set` and `def` succeed;
and writes never touch any other registry. -/
theorem write_after_read_rejection :
    (∀ fuel c k w v w' r p, getReg w c = some r → r.prev = some p →
      invoke fuel c k w = some (.ok v, w') →
      (∀ v', doSet w' c k v' = (.error (mkErr w' (.alreadyRead k)), bump w')) ∧
      (∀ fa, doDef w' c k fa = (.error (mkErr w' (.alreadyRead k)), bump w'))) ∧
    (∀ w c k e, lookupE w c k = some e → e.s ≠ .wasRead →
      (∀ v', doSet w c k v' = (.ok (), updE w c k ⟨.hasValue, v', none⟩)) ∧
      (∀ fa, doDef w c k fa = (.ok (), updE w c k ⟨.hasFactory, .fac fa, none⟩))) ∧
    (∀ w c k, lookupE w c k = none →
      ∀ v', doSet w c k v' = (.ok (), updE w c k ⟨.hasValue, v', none⟩)) ∧
    (∀ w c k st v j, j ≠ c → getReg (setEntryW w c k st v).2 j = getReg w j) := by
  refine ⟨?_, ?_, ?_, ?_⟩
  · intro fuel c k w v w' r p hr hp h
    obtain ⟨e, he, hes, _⟩ := (okRead fuel).2.2 c k w v w' r p hr hp h
    exact ⟨fun v' => setEntryW_alreadyRead w' c k .hasValue v' e he hes,
      fun fa => setEntryW_alreadyRead w' c k .hasFactory (.fac fa) e he hes⟩
  · intro w c k e he hs
    exact ⟨fun v' => setEntryW_write w c k .hasValue v' e he hs,
      fun fa => setEntryW_write w c k .hasFactory (.fac fa) e he hs⟩
  · intro w c k he v'
    exact setEntryW_insert w c k .hasValue v' he
  · intro w c k st v j hj
    unfold setEntryW
    split
    · rename_i e he
      by_cases hs : e.s = .wasRead
      · simp only [hs, if_pos rfl]
        exact getReg_congr (bump_regs w) j
      · simp only [if_neg hs]
        exact getReg_updE_ne w c k _ j hj
    · exact getReg_updE_ne w c k _ j hj

/-- A context with a plain unread value for key 8 and a read value for key 3. -/
def w_writes : World :=
  ⟨[⟨none, fun _ => none⟩,
    ⟨some 0, fun k => if k = 3 then some ⟨.wasRead, .val 11, none⟩
      else if k = 8 then some ⟨.hasValue, .val 1, none⟩ else none⟩],
   none, none, 7, envNone, 0, 0⟩

/-- Witness for the amended C3: after a successful read of key 3 the write
is refused with the `Already read` error; before any read of key 8 the
write succeeds. -/
theorem write_after_read_rejection_witness :
    (∃ w', invoke 7 1 3 w_writes = some (.ok (.val 11), w') ∧
      (∀ v', doSet w' 1 3 v' = (.error (mkErr w' (.alreadyRead 3)), bump w')) ∧
      (∀ fa, doDef w' 1 3 fa = (.error (mkErr w' (.alreadyRead 3)), bump w'))) ∧
    doSet w_writes 1 8 (.val 2) =
      (.ok (), updE w_writes 1 8 ⟨.hasValue, .val 2, none⟩) := by
  constructor
  · exact ⟨_, rfl, write_after_read_rejection.1 7 1 3 w_writes (.val 11) _ _ 0 rfl rfl rfl⟩
  · exact (write_after_read_rejection.2.1 w_writes 1 8 ⟨.hasValue, .val 1, none⟩ rfl
      (fun hc => by cases hc)).1 (.val 2)

end ToUse
namespace ToUse

/-! ## C4 — factory error caching -/

/-- C4.  When the registered factory of key `k` raises an error on its first
run, the raised error object is caught and stored in the entry in state
`hasError` with the dependency record cleared, the identical object is
propagated to the caller, and every subsequent `invoke` of that key in that
registry re-raises the identical cached error object with the world
completely unchanged — in particular the factory is never executed again
(the factory-run counter stays fixed). -/
theorem factory_error_cached (fuel c k : Nat) (w : World) (e : Entry) (fa : Factory)
    (er : Err) (ks : List Key) (w₂ : World) (r : Reg) (p : Nat)
    (hr : getReg w c = some r) (hp : r.prev = some p) (hm : r.map k = some e)
    (hs : e.s = .hasFactory) (hv : e.v = .fac fa)
    (hexec : execFac fuel c fa k (updE w c k { e with s := .isCreating })
      = some (.error er, ks, w₂)) :
    invoke (fuel + 3) c k w
      = some (.error er, updE w₂ c k ⟨.hasError, .err er, none⟩) ∧
    lookupE (updE w₂ c k ⟨.hasError, .err er, none⟩) c k
      = some ⟨.hasError, .err er, none⟩ ∧
    (∀ fuel', invoke (fuel' + 2) c k (updE w₂ c k ⟨.hasError, .err er, none⟩)
      = some (.error er, updE w₂ c k ⟨.hasError, .err er, none⟩)) ∧
    (∀ fuel' res wf, invoke (fuel' + 2) c k (updE w₂ c k ⟨.hasError, .err er, none⟩)
      = some (res, wf) → wf.facRuns = (updE w₂ c k ⟨.hasError, .err er, none⟩).facRuns) := by
  have he : lookupE w c k = some e := by simp only [lookupE, hr, hm]
  have hshape : shapeOK w w₂ :=
    shapeOK_trans (shapeOK_updE w c k _) ((shapePres fuel).2.2.2.1 _ _ _ _ _ _ _ hexec)
  have hn₂ : normalCtx w₂ c := normalCtx_of_shape hshape ⟨r, p, hr, hp⟩
  obtain ⟨r₂, p₂, hr₂, hp₂⟩ := hn₂
  -- registry of the final cached world
  have hr₃ := getReg_updE_self w₂ c k ⟨.hasError, .err er, none⟩ r₂ hr₂
  have hm₃ : ((fun k' => if k' = k then some (⟨.hasError, .err er, none⟩ : Entry)
      else r₂.map k') : Key → Option Entry) k = some ⟨.hasError, .err er, none⟩ := by
    simp
  have hlook₃ : lookupE (updE w₂ c k ⟨.hasError, .err er, none⟩) c k
      = some ⟨.hasError, .err er, none⟩ :=
    lookupE_updE_self w₂ c k _ r₂ hr₂
  refine ⟨?_, hlook₃, ?_, ?_⟩
  · rw [invoke_hit (fuel + 2) c k w r p e hr hp hm,
      loop_hasFactory (fuel + 1) c k w e he hs,
      factoryCase_err fuel c k w e fa er ks w₂ he hv hexec]
  · intro fuel'
    rw [invoke_hit (fuel' + 1) c k _ _ p₂ _ hr₃ hp₂ hm₃,
      loop_hasError fuel' c k _ _ er hlook₃ rfl rfl]
  · intro fuel' res wf h
    rw [invoke_hit (fuel' + 1) c k _ _ p₂ _ hr₃ hp₂ hm₃,
      loop_hasError fuel' c k _ _ er hlook₃ rfl rfl] at h
    cases h
    rfl

/-- Witness for C4: a factory that throws a fresh error object; the first
lookup propagates it, the entry caches it with the record cleared, and the
identical object (same allocation id 0) is re-raised ever after with no
further factory run. -/
theorem factory_error_cached_witness :
    ∃ wE, invoke 9 1 5 w_failKey
        = some (.error (.mk 0 (.user 9)), updE wE 1 5 ⟨.hasError, .err (.mk 0 (.user 9)), none⟩) ∧
      lookupE (updE wE 1 5 ⟨.hasError, .err (.mk 0 (.user 9)), none⟩) 1 5
        = some ⟨.hasError, .err (.mk 0 (.user 9)), none⟩ ∧
      ∀ fuel', invoke (fuel' + 2) 1 5 (updE wE 1 5 ⟨.hasError, .err (.mk 0 (.user 9)), none⟩)
        = some (.error (.mk 0 (.user 9)),
            updE wE 1 5 ⟨.hasError, .err (.mk 0 (.user 9)), none⟩) := by
  obtain ⟨h₁, h₂, h₃, h₄⟩ := factory_error_cached 6 1 5 w_failKey
    ⟨.hasFactory, .fac (.user 1 (.fail 9)), none⟩ (.user 1 (.fail 9))
    (.mk 0 (.user 9)) [] _ _ 0 rfl rfl rfl rfl rfl rfl
  exact ⟨_, h₁, h₂, h₃⟩

end ToUse
namespace ToUse

/-! ## C5 — cycle detection and caching -/

/-- C5.  A re-entrant lookup of a key whose entry is `isCreating` raises a
fresh cycle error naming the entry's current payload (the factory) and the
key; and for a key whose registered factory looks the key itself up again
(the direct cycle through the ambient context), the whole lookup raises
such a cycle error, the entry transitions to `hasError` holding exactly
that error object with the dependency record cleared, and every subsequent
lookup re-raises the identical cached object with the world unchanged. -/
theorem cycle_detection :
    (∀ fuel c k w r p e, getReg w c = some r → r.prev = some p →
      r.map k = some e → e.s = .isCreating →
      invoke (fuel + 2) c k w = some (.error (.mk w.counter (.cyc e.v k)), bump w)) ∧
    (∀ fuel c k w r p i d₀, getReg w c = some r → r.prev = some p →
      r.map k = some ⟨.hasFactory, .fac (.user i (.useG k)), d₀⟩ →
      ∃ er w₃, Err.tag er = .cyc (.fac (.user i (.useG k))) k ∧
        invoke (fuel + 7) c k w = some (.error er, w₃) ∧
        lookupE w₃ c k = some ⟨.hasError, .err er, none⟩ ∧
        ∀ fuel', invoke (fuel' + 2) c k w₃ = some (.error er, w₃)) := by
  constructor
  · intro fuel c k w r p e hr hp hm hs
    have he : lookupE w c k = some e := by simp only [lookupE, hr, hm]
    rw [invoke_hit (fuel + 1) c k w r p e hr hp hm, loop_isCreating fuel c k w e he hs]
    rfl
  · intro fuel c k w r p i d₀ hr hp hm
    set fa := Factory.user i (.useG k) with hfa
    set e₀ : Entry := ⟨.hasFactory, .fac fa, d₀⟩ with he₀
    set w₁ := updE w c k ⟨.isCreating, .fac fa, d₀⟩ with hw₁
    set u := facStart w₁ c with hu
    have hr₁ : getReg w₁ c = some { r with map := fun k' => if k' = k then some (Entry.mk .isCreating (.fac fa) d₀) else r.map k' } :=
      getReg_updE_self w c k _ r hr
    have hru : getReg u c = some { r with map := fun k' => if k' = k then some (Entry.mk .isCreating (.fac fa) d₀) else r.map k' } := hr₁
    have hlu : lookupE u c k = some ⟨.isCreating, .fac fa, d₀⟩ := by
      simp only [lookupE, hru]
      simp
    set er : Err := .mk w.counter (.cyc (.fac fa) k) with her
    have hcnt : u.counter = w.counter := by
      show w₁.counter = w.counter
      exact updE_counter w c k _
    -- the re-entrant lookup inside the factory raises the cycle error
    have hstep : invoke (fuel + 2) c k u = some (.error er, bump u) := by
      rw [invoke_hit (fuel + 1) c k u _ p (Entry.mk .isCreating (.fac fa) d₀) hru hp (by simp),
        loop_isCreating fuel c k u _ hlu rfl]
      unfold mkErr
      rw [hcnt]
    -- running the factory body is exactly that lookup
    have hbody : runCode (fuel + 3) (.useG k) [] u = some (.error er, bump u) := by
      have hctx : u.ctx = some c := rfl
      simp only [runCode, hctx]
      exact hstep
    have hexec : execFac (fuel + 4) c fa k w₁
        = some (.error er, (bump u).used.getD [], restoreAmb w₁ (bump u)) := by
      rw [hfa, execFac_user (fuel + 3) c i (.useG k) k w₁]
      rw [← hu, hbody]
    have he₀l : lookupE w c k = some e₀ := by simp only [lookupE, hr, hm, he₀]
    have hmain : invoke (fuel + 7) c k w = some (.error er,
        updE (restoreAmb w₁ (bump u)) c k ⟨.hasError, .err er, none⟩) := by
      rw [show fuel + 7 = (fuel + 5) + 2 from rfl,
        invoke_hit (fuel + 6) c k w r p e₀ hr hp hm,
        loop_hasFactory (fuel + 5) c k w e₀ he₀l rfl,
        factoryCase_err (fuel + 4) c k w e₀ fa er _ _ he₀l rfl (by
          show execFac (fuel + 4) c fa k (updE w c k { e₀ with s := .isCreating }) = _
          exact hexec)]
    set w₂ := restoreAmb w₁ (bump u) with hw₂
    set w₃ := updE w₂ c k ⟨.hasError, .err er, none⟩ with hw₃
    have hr₂ : getReg w₂ c = some { r with map := fun k' => if k' = k then some (Entry.mk .isCreating (.fac fa) d₀) else r.map k' } := hr₁
    have hr₃ := getReg_updE_self w₂ c k ⟨.hasError, .err er, none⟩ _ hr₂
    have hl₃ : lookupE w₃ c k = some ⟨.hasError, .err er, none⟩ :=
      lookupE_updE_self w₂ c k _ _ hr₂
    refine ⟨er, w₃, rfl, hmain, hl₃, ?_⟩
    intro fuel'
    rw [invoke_hit (fuel' + 1) c k w₃ _ p (Entry.mk .hasError (.err er) none) hr₃ hp (by simp),
      loop_hasError fuel' c k w₃ _ er hl₃ rfl rfl]

/-- A context whose key 6 is defined with the directly self-cyclical
factory `() => use(6)`. -/
def w_cyc : World :=
  ⟨[⟨none, fun _ => none⟩,
    ⟨some 0, oneKey 6 ⟨.hasFactory, .fac (.user 4 (.useG 6)), none⟩⟩],
   none, none, 0, envNone, 0, 0⟩

/-- Witness for C5: the self-cyclical factory raises the cycle error naming
itself and key 6; the error is cached and re-raised identically. -/
theorem cycle_detection_witness :
    ∃ er w₃, Err.tag er = .cyc (.fac (.user 4 (.useG 6))) 6 ∧
      invoke 9 1 6 w_cyc = some (.error er, w₃) ∧
      lookupE w₃ 1 6 = some ⟨.hasError, .err er, none⟩ ∧
      ∀ fuel', invoke (fuel' + 2) 1 6 w₃ = some (.error er, w₃) := by
  exact cycle_detection.2 2 1 6 w_cyc _ 0 4 none rfl rfl rfl

end ToUse
namespace ToUse

/-! ## C6 — materialisation of inherited entries (corrected) -/

/-- Grandparent/parent/child chain where the parent holds an *unread*
factory entry for key 5. -/
def w_inh : World :=
  ⟨[⟨none, fun _ => none⟩,
    ⟨some 0, oneKey 5 ⟨.hasFactory, .fac (.user 1 (.pure (.val 3))), none⟩⟩,
    ⟨some 1, fun _ => none⟩],
   none, none, 0, envNone, 0, 0⟩

/-- Counterexample to C6 as stated: when the nearest ancestor entry is in
state `hasFactory` (a pending definition), the materialised local copy
keeps state `hasFactory` — it is NOT forced to `hasValue` (PendingValue).
Consequently the child runs the factory rather than sharing the factory
object as a value: the lookup returns the factory's result `val 3`, not the
factory payload. -/
theorem materialize_keeps_factory_state :
    (materialize w_inh (some 1) 5).s = .hasFactory ∧
    EState.hasFactory ≠ EState.hasValue ∧
    (invoke 9 2 5 w_inh).map (fun p => p.1) = some (.ok (.val 3)) := by
  exact ⟨rfl, by decide, rfl⟩

/-- C6 (amended).  Materialisation: the nearest ancestor entry found by the
walk is copied — payload and dependency record unchanged — with its state
forced to `hasValue` (PendingValue) exactly when the ancestor entry was
`wasRead` (Resolved); an ancestor entry in any other state (pending
factory, cached error, resolving) is copied with its state unchanged.  If
no ancestor holds an entry, the local entry is created in state
`hasFactory` with the default resolution policy as payload.  The entry so
produced is stored locally and the state machine then runs on it. -/
theorem materialize_spec :
    (∀ w p k a, findInh w k w.regs.length (some p) = some a →
      materialize w (some p) k = inheritEntry a ∧
      (a.s = .wasRead → (inheritEntry a).s = .hasValue) ∧
      (a.s ≠ .wasRead → (inheritEntry a).s = a.s) ∧
      (inheritEntry a).v = a.v ∧ (inheritEntry a).d = a.d) ∧
    (∀ w p k, findInh w k w.regs.length (some p) = none →
      materialize w (some p) k = ⟨.hasFactory, .fac .defaultL, none⟩) ∧
    (∀ fuel c k w r p, getReg w c = some r → r.prev = some p → r.map k = none →
      invoke (fuel + 1) c k w = loop fuel c k (updE w c k (materialize w (some p) k))) := by
  refine ⟨?_, ?_, ?_⟩
  · intro w p k a hf
    refine ⟨by unfold materialize; rw [hf], ?_, ?_, rfl, rfl⟩
    · intro hs
      unfold inheritEntry
      simp [hs]
    · intro hs
      unfold inheritEntry
      simp [hs]
  · intro w p k hf
    unfold materialize
    rw [hf]
  · intro fuel c k w r p hr hp hm
    exact invoke_miss fuel c k w r p hr hp hm

/-- Witness for the amended C6 on the concrete chain: the parent's
`hasFactory` entry is copied unchanged, and a read ancestor entry would be
downgraded to `hasValue`. -/
theorem materialize_spec_witness :
    materialize w_inh (some 1) 5
      = inheritEntry ⟨.hasFactory, .fac (.user 1 (.pure (.val 3))), none⟩ ∧
    (inheritEntry ⟨.hasFactory, .fac (.user 1 (.pure (.val 3))), none⟩).s = .hasFactory ∧
    (inheritEntry ⟨.wasRead, .val 11, none⟩).s = .hasValue ∧
    invoke 9 2 5 w_inh = loop 8 2 5 (updE w_inh 2 5 (materialize w_inh (some 1) 5)) := by
  obtain ⟨h₁, h₂, h₃, h₄, h₅⟩ := materialize_spec.1 w_inh 1 5
    ⟨.hasFactory, .fac (.user 1 (.pure (.val 3))), none⟩ rfl
  refine ⟨h₁, h₃ (fun hc => by cases hc), ?_, ?_⟩
  · exact (materialize_spec.1 w_idem 1 3 ⟨.wasRead, .val 11, none⟩ rfl).2.1 rfl
  · exact materialize_spec.2.2 8 2 5 w_inh _ 1 rfl rfl rfl

end ToUse
namespace ToUse

/-! ## C7 — global-context delegation and the no-active-context error -/

/-- C7.  Calling the global handle (a context whose registry has no parent)
with a key when no ambient context is installed raises a fresh
`No current context` error, as does reading the `use.this` accessor; while
an ambient context `c` is installed (which happens exactly during the
synchronous extent of `exec`, which installs it on entry and restores the
saved slot pair on every exit), calling the global handle returns exactly
the result of invoking `c` itself, and `use.this` yields `c`. -/
theorem global_delegation :
    (∀ fuel g k w r, getReg w g = some r → r.prev = none → w.ctx = none →
      invoke (fuel + 1) g k w = some (.error (mkErr w .noCtx), bump w) ∧
      useThis w = (.error (mkErr w .noCtx), bump w)) ∧
    (∀ fuel g k w r c, getReg w g = some r → r.prev = none → w.ctx = some c →
      invoke (fuel + 1) g k w = invoke fuel c k w ∧
      useThis w = (.ok c, w)) ∧
    (∀ c fa k w, (facStart w c).ctx = some c ∧
      ∀ fuel r ks w', execFac fuel c fa k w = some (r, ks, w') →
        w'.ctx = w.ctx ∧ w'.used = w.used) := by
  refine ⟨?_, ?_, ?_⟩
  · intro fuel g k w r hr hp hc
    exact ⟨invoke_global_noCtx fuel g k w r hr hp hc, by unfold useThis; rw [hc]⟩
  · intro fuel g k w r c hr hp hc
    exact ⟨invoke_global_delegate fuel g k w r c hr hp hc, by unfold useThis; rw [hc]⟩
  · intro c fa k w
    refine ⟨rfl, ?_⟩
    intro fuel r ks w' h
    match fuel with
    | 0 => cases h
    | n + 1 =>
        simp only [execFac] at h
        split at h
        · cases h
        · cases h
          exact ⟨rfl, rfl⟩

/-- Witness for C7: in the initial world (no ambient context) the global
registry 0 raises the no-context error for any key and for `use.this`; with
an ambient context installed, the global call is exactly the ambient
context's own lookup. -/
theorem global_delegation_witness :
    (invoke 9 0 3 w0 = some (.error (mkErr w0 .noCtx), bump w0) ∧
      useThis w0 = (.error (mkErr w0 .noCtx), bump w0)) ∧
    (invoke 8 0 3 { w_idem with ctx := some 1 }
        = invoke 7 1 3 { w_idem with ctx := some 1 } ∧
      useThis { w_idem with ctx := some 1 } = (.ok 1, { w_idem with ctx := some 1 })) := by
  constructor
  · exact global_delegation.1 8 0 3 w0 ⟨none, fun _ => none⟩ rfl rfl rfl
  · exact global_delegation.2.1 7 0 3 { w_idem with ctx := some 1 } _ 1 rfl rfl rfl

end ToUse
namespace ToUse

/-! ## C8 — ancestor registries and child lookups (corrected) -/

/-- Parent (context 1) holding a pending value for key 2, child (context 2)
whose key 7 carries a factory that explicitly invokes the parent handle:
`use.def(7, () => parent(2))` — the scoped-service pattern from the
package's own documentation. -/
def w_scoped : World :=
  ⟨[⟨none, fun _ => none⟩,
    ⟨some 0, oneKey 2 ⟨.hasValue, .val 5, none⟩⟩,
    ⟨some 1, oneKey 7 ⟨.hasFactory, .fac (.user 9 (.useC 1 2)), none⟩⟩],
   none, none, 0, envNone, 0, 0⟩

/-- Counterexample to C8 as stated: during `C.invoke(K)` on the child
(context 2, key 7), the factory's explicit call of the parent handle
resolves key 2 *in the parent registry*: the parent's entry for key 2 is
modified from `hasValue` to `wasRead` by the child lookup's execution. -/
theorem ancestor_mutated_by_explicit_call :
    lookupE w_scoped 1 2 = some ⟨.hasValue, .val 5, none⟩ ∧
    (∃ w', invoke 9 2 7 w_scoped = some (.ok (.val 5), w') ∧
      lookupE w' 1 2 = some ⟨.wasRead, .val 5, none⟩) ∧
    EState.wasRead ≠ EState.hasValue := by
  exact ⟨rfl, ⟨_, rfl, rfl⟩, by decide⟩

/-- C8 (amended).  Provided every factory and recipe reachable in the world
performs lookups only through the ambient context (never by explicitly
invoking another Context handle), and every stored dependency record either
originates in the invoked context or has all its recorded keys already
Resolved in its origin registry (true of all records the library itself
creates), the entire execution of `C.invoke(K)` — ancestor walk,
smart-sharing validation lookups against origin contexts, default-policy
invocation, and nested factory runs — never adds, removes, or modifies any
entry in any registry other than `C`'s own; in particular every ancestor
registry of `C` is untouched. -/
theorem ancestor_frame (fuel c k : Nat) (w : World) (r : Except Err Dyn) (w' : World)
    (hP : Preds c w) (h : invoke fuel c k w = some (r, w')) :
    ∀ j, j ≠ c → getReg w' j = getReg w j :=
  ((framePres fuel).1 c k w r w' hP h).1

/-- Parent/child world used for the frame witness: context 1 holds a plain
pending value for key 5. -/
def w_frameW : World :=
  ⟨[⟨none, fun _ => none⟩,
    ⟨some 0, oneKey 5 ⟨.hasValue, .val 3, none⟩⟩],
   none, none, 0, envNone, 0, 0⟩

theorem w_frameW_preds : Preds 1 w_frameW := by
  have hg0 : getReg w_frameW 0 = some ⟨none, fun _ => none⟩ := rfl
  have hg1 : getReg w_frameW 1 = some ⟨some 0, oneKey 5 ⟨.hasValue, .val 3, none⟩⟩ := rfl
  have hgs : ∀ j, getReg w_frameW (j + 2) = none := by
    intro j
    simp [getReg, w_frameW, List.getElem?_cons_succ, List.getElem?_nil]
  refine ⟨⟨?_, ?_⟩, ?_, ⟨⟨some 0, oneKey 5 ⟨.hasValue, .val 3, none⟩⟩, 0, hg1, rfl⟩⟩
  · intro j r hj k e hk
    rcases j with _ | _ | j
    · rw [hg0] at hj
      cases hj
      exact Option.noConfusion hk
    · rw [hg1] at hj
      cases hj
      have hk' : (if k = 5 then some (Entry.mk .hasValue (.val 3) none) else none) = some e := hk
      by_cases hk5 : k = 5
      · rw [if_pos hk5] at hk'
        cases hk'
        refine ⟨?_, ?_⟩
        · intro hs fa hv
          rcases hs with hs | hs <;> cases hs
        · intro d hd
          cases hd
      · rw [if_neg hk5] at hk'
        exact Option.noConfusion hk'
    · have h2 : getReg w_frameW (j + 1 + 1) = none := hgs j
      exact Option.noConfusion (h2.symm.trans hj)
  · intro k code hk
    exact Option.noConfusion hk
  · intro j r hj k e hk d hd
    rcases j with _ | _ | j
    · rw [hg0] at hj
      cases hj
      exact Option.noConfusion hk
    · rw [hg1] at hj
      cases hj
      have hk' : (if k = 5 then some (Entry.mk .hasValue (.val 3) none) else none) = some e := hk
      by_cases hk5 : k = 5
      · rw [if_pos hk5] at hk'
        cases hk'
        exact Option.noConfusion hd
      · rw [if_neg hk5] at hk'
        exact Option.noConfusion hk'
    · have h2 : getReg w_frameW (j + 1 + 1) = none := hgs j
      exact Option.noConfusion (h2.symm.trans hj)

/-- Witness for the amended C8: resolving key 5 in the child context leaves
every other registry — in particular the global ancestor — untouched. -/
theorem ancestor_frame_witness :
    ∃ r w', invoke 9 1 5 w_frameW = some (r, w') ∧
      ∀ j, j ≠ 1 → getReg w' j = getReg w_frameW j := by
  refine ⟨_, _, rfl, ancestor_frame 9 1 5 w_frameW _ _ w_frameW_preds rfl⟩

end ToUse
namespace ToUse

/-! ## C9 — writes clear dependency provenance -/

/-- C9.  A successful `set` stores `{s := hasValue, v, d := null}` — the
dependency record is cleared even when the previous (materialised) entry
carried an inherited record — and the next lookup of the key returns
exactly the written value, marks the entry `wasRead`, and performs neither
a smart-sharing validation pass nor any factory run; `def` clears the
record the same way. -/
theorem write_clears_deps :
    (∀ w c k e v, lookupE w c k = some e → e.s ≠ .wasRead →
      doSet w c k v = (.ok (), updE w c k ⟨.hasValue, v, none⟩)) ∧
    (∀ w c k v, lookupE w c k = none →
      doSet w c k v = (.ok (), updE w c k ⟨.hasValue, v, none⟩)) ∧
    (∀ w c k e fa, lookupE w c k = some e → e.s ≠ .wasRead →
      doDef w c k fa = (.ok (), updE w c k ⟨.hasFactory, .fac fa, none⟩)) ∧
    (∀ fuel c k w r p v, getReg w c = some r → r.prev = some p →
      r.map k = some ⟨.hasValue, v, none⟩ →
      ∃ w₃, invoke (fuel + 3) c k w = some (.ok v, w₃) ∧
        lookupE w₃ c k = some ⟨.wasRead, v, none⟩ ∧
        w₃.valRuns = w.valRuns ∧ w₃.facRuns = w.facRuns) := by
  refine ⟨?_, ?_, ?_, ?_⟩
  · intro w c k e v he hs
    exact setEntryW_write w c k .hasValue v e he hs
  · intro w c k v he
    exact setEntryW_insert w c k .hasValue v he
  · intro w c k e fa he hs
    exact setEntryW_write w c k .hasFactory (.fac fa) e he hs
  · intro fuel c k w r p v hr hp hm
    have he : lookupE w c k = some ⟨.hasValue, v, none⟩ := by simp only [lookupE, hr, hm]
    set w₁ := updE w c k ⟨.wasRead, v, none⟩ with hw₁
    have hl₁ : lookupE w₁ c k = some ⟨.wasRead, v, none⟩ :=
      lookupE_updE_self w c k _ r hr
    rw [invoke_hit (fuel + 2) c k w r p _ hr hp hm,
      loop_hasValue_noDeps (fuel + 1) c k w _ he rfl rfl,
      loop_wasRead fuel c k w₁ _ hl₁ rfl]
    refine ⟨_, rfl, ?_, ?_, ?_⟩
    · split
      · rw [lookupE_pushUsed]
        exact hl₁
      · exact hl₁
    · have h₁ : w₁.valRuns = w.valRuns := updE_valRuns w c k _
      split
      · rw [pushUsed_valRuns]
        exact h₁
      · exact h₁
    · have h₁ : w₁.facRuns = w.facRuns := updE_facRuns w c k _
      split
      · rw [pushUsed_facRuns]
        exact h₁
      · exact h₁

/-- A context whose key 9 was materialised with an inherited non-empty
dependency record. -/
def w_prov : World :=
  ⟨[⟨none, fun _ => none⟩,
    ⟨some 0, oneKey 9 ⟨.hasValue, .val 4, some ⟨1, [3], .user 2 (.useG 3)⟩⟩⟩],
   none, none, 0, envNone, 0, 0⟩

/-- Witness for C9: `set` over the record-carrying entry clears the record
and the next lookup returns the written value with no validation pass and
no factory run. -/
theorem write_clears_deps_witness :
    doSet w_prov 1 9 (.val 8) = (.ok (), updE w_prov 1 9 ⟨.hasValue, .val 8, none⟩) ∧
    (∃ w₃, invoke 9 1 9 (updE w_prov 1 9 ⟨.hasValue, .val 8, none⟩)
        = some (.ok (.val 8), w₃) ∧
      lookupE w₃ 1 9 = some ⟨.wasRead, .val 8, none⟩ ∧
      w₃.valRuns = (updE w_prov 1 9 ⟨.hasValue, .val 8, none⟩).valRuns ∧
      w₃.facRuns = (updE w_prov 1 9 ⟨.hasValue, .val 8, none⟩).facRuns) := by
  constructor
  · exact write_clears_deps.1 w_prov 1 9 ⟨.hasValue, .val 4, some ⟨1, [3], .user 2 (.useG 3)⟩⟩
      (.val 8) rfl (by decide)
  · exact write_clears_deps.2.2.2 6 1 9 (updE w_prov 1 9 ⟨.hasValue, .val 8, none⟩)
      _ 0 (.val 8) rfl rfl rfl

end ToUse
namespace ToUse

/-! ## C1 — smart sharing across the parent/child boundary -/

/-- C1.  When a child lookup dispatches on an inherited `hasValue` entry
carrying a dependency record, the recorded keys are compared in their
original order (each resolved in the child and in the origin context and
compared by identity, short-circuiting on the first mismatch).  If the
validation pass returns `true` the entry flips to `wasRead` and the lookup
returns the identical cached payload with no factory run after validation;
if it returns `false` the entry is reconfigured with the origin factory and
the state machine proceeds to execute that factory afresh in the child. -/
theorem smart_sharing (fuel c k : Nat) (w : World) (e : Entry) (d : Deps) (r : Reg)
    (p : Nat) (hr : getReg w c = some r) (hp : r.prev = some p)
    (hm : r.map k = some e) (hs : e.s = .hasValue) (hd : e.d = some d) :
    (∀ w₂, validate (fuel + 1) c d.c d.k (valStart w c) = some (.ok true, w₂) →
      lookupE w₂ c k = some e →
      ∃ w₃, invoke (fuel + 3) c k w = some (.ok e.v, w₃) ∧
        lookupE w₃ c k = some ⟨.wasRead, e.v, e.d⟩ ∧
        w₃.facRuns = w₂.facRuns) ∧
    (∀ w₂, validate (fuel + 1) c d.c d.k (valStart w c) = some (.ok false, w₂) →
      lookupE w₂ c k = some e →
      invoke (fuel + 3) c k w
        = factoryCase (fuel + 1) c k
            (updE (restoreAmb w w₂) c k { e with v := .fac d.f })) ∧
    (∀ fuel' u e' fa r' w'', lookupE u c k = some e' → e'.v = .fac fa →
      factoryCase (fuel' + 1) c k u = some (r', w'') →
      ∃ res ks w₄, execFac fuel' c fa k (updE u c k { e' with s := .isCreating })
        = some (res, ks, w₄)) ∧
    (∀ fuel' o k' ks' u v₁ w₁ v₂ w₂, invoke fuel' c k' u = some (.ok v₁, w₁) →
      invoke fuel' o k' w₁ = some (.ok v₂, w₂) → dEq v₁ v₂ = false →
      validate (fuel' + 1) c o (k' :: ks') u = some (.ok false, w₂)) := by
  have he : lookupE w c k = some e := by simp only [lookupE, hr, hm]
  refine ⟨?_, ?_, ?_, ?_⟩
  · intro w₂ hv h₂
    obtain ⟨r₂, hr₂, hm₂⟩ := lookupE_eq h₂
    have hrr : getReg (restoreAmb w w₂) c = some r₂ := hr₂
    set w₁ := updE (restoreAmb w w₂) c k { e with s := .wasRead } with hw₁
    have hl₁ : lookupE w₁ c k = some { e with s := .wasRead } :=
      lookupE_updE_self (restoreAmb w w₂) c k _ r₂ hrr
    rw [invoke_hit (fuel + 2) c k w r p e hr hp hm,
      loop_val_true (fuel + 1) c k w e d w₂ e he hs hd hv h₂,
      loop_wasRead fuel c k w₁ _ hl₁ rfl]
    refine ⟨_, rfl, ?_, ?_⟩
    · have : ({ e with s := EState.wasRead } : Entry) = ⟨.wasRead, e.v, e.d⟩ := rfl
      split
      · rw [lookupE_pushUsed, hl₁]
      · rw [hl₁]
    · have h₁ : w₁.facRuns = w₂.facRuns := updE_facRuns _ c k _
      split
      · rw [pushUsed_facRuns]
        exact h₁
      · exact h₁
  · intro w₂ hv h₂
    rw [invoke_hit (fuel + 2) c k w r p e hr hp hm,
      loop_val_false (fuel + 1) c k w e d w₂ e he hs hd hv h₂]
  · intro fuel' u e' fa r' w'' he' hv' hfc
    simp only [factoryCase, he', hv'] at hfc
    rw [show ({ e' with s := EState.isCreating } : Entry)
      = ⟨.isCreating, .fac fa, e'.d⟩ from by rw [← hv']]
    split at hfc
    · cases hfc
    · rename_i er ks w₄ heq
      exact ⟨.error er, ks, w₄, heq⟩
    · rename_i v ks w₄ heq
      exact ⟨.ok v, ks, w₄, heq⟩
  · intro fuel' o k' ks' u v₁ w₁ v₂ w₂ h₁ h₂ hne
    rw [validate_cons fuel' c o k' ks' u]
    simp [h₁, h₂, hne]

end ToUse
namespace ToUse

/-- Parent (context 1) has read key 1 as `val 10`; the child (context 2)
inherited key 5's cached `val 99` with record
`{c := 1, k := [1], f := () => use(1)}`. -/
def w_share : World :=
  ⟨[⟨none, fun _ => none⟩,
    ⟨some 0, oneKey 1 ⟨.wasRead, .val 10, none⟩⟩,
    ⟨some 1, oneKey 5 ⟨.hasValue, .val 99, some ⟨1, [1], .user 7 (.useG 1)⟩⟩⟩],
   none, none, 0, envNone, 0, 0⟩

/-- As `w_share`, but the child overrides dependency key 1 with a different
value, so validation must fail and the factory must be re-run. -/
def w_shareF : World :=
  ⟨[⟨none, fun _ => none⟩,
    ⟨some 0, oneKey 1 ⟨.wasRead, .val 10, none⟩⟩,
    ⟨some 1, fun k => if k = 1 then some ⟨.hasValue, .val 20, none⟩
      else if k = 5 then some ⟨.hasValue, .val 99, some ⟨1, [1], .user 7 (.useG 1)⟩⟩
      else none⟩],
   none, none, 0, envNone, 0, 0⟩

/-- Witness for C1: with matching dependencies the child lookup returns the
parent's identical cached `val 99` and flips the entry to `wasRead` without
any factory run after validation; with the dependency overridden to
`val 20`, the lookup reconfigures the entry with the origin factory and the
recomputation runs the origin factory in the child, yielding the child's overridden dependency value `val 20` instead of the parent's cached result. -/
theorem smart_sharing_witness :
    (∃ w₃, invoke 6 2 5 w_share = some (.ok (.val 99), w₃) ∧
      lookupE w₃ 2 5 = some ⟨.wasRead, .val 99, some ⟨1, [1], .user 7 (.useG 1)⟩⟩) ∧
    (∃ w₂, validate 4 2 1 [1] (valStart w_shareF 2) = some (.ok false, w₂) ∧
      invoke 6 2 5 w_shareF = factoryCase 4 2 5
        (updE (restoreAmb w_shareF w₂) 2 5
          ⟨.hasValue, .fac (.user 7 (.useG 1)), some ⟨1, [1], .user 7 (.useG 1)⟩⟩)) ∧
    (invoke 9 2 5 w_shareF).map (fun p => p.1) = some (.ok (.val 20)) := by
  refine ⟨?_, ?_, ?_⟩
  · obtain ⟨w₃, hA, hB, _⟩ :=
      (smart_sharing 3 2 5 w_share ⟨.hasValue, .val 99, some ⟨1, [1], .user 7 (.useG 1)⟩⟩
        ⟨1, [1], .user 7 (.useG 1)⟩ _ 1 rfl rfl rfl rfl rfl).1 _ rfl rfl
    exact ⟨w₃, hA, hB⟩
  · refine ⟨_, rfl, ?_⟩
    exact (smart_sharing 3 2 5 w_shareF ⟨.hasValue, .val 99, some ⟨1, [1], .user 7 (.useG 1)⟩⟩
        ⟨1, [1], .user 7 (.useG 1)⟩ _ 1 rfl rfl rfl rfl rfl).2.1 _ rfl rfl
  · rfl

end ToUse
namespace ToUse

/-! ## C10 — validation resolves dependencies as a side effect -/

/-- C10.  Every dependency key reached by a smart-sharing validation pass
before it stops is fully resolved (`wasRead`) in the child context — all of
them when validation succeeds, the keys up to and including the first
mismatch otherwise — so a later `set`/`def` of such a key raises the
`Already read` error; moreover the validation pass runs with this context
ambient and NO active dependency log (so its comparison lookups are not
appended to any log), and it restores the ambient slot pair on exit. -/
theorem validation_resolves_deps :
    (∀ fuel c o ks w b w', normalCtx w c →
      validate fuel c o ks w = some (.ok b, w') →
      (b = true → ∀ k ∈ ks, isRead w' c k) ∧
      (b = false → ∃ pre k₀ post, ks = pre ++ k₀ :: post ∧
        ∀ k ∈ pre ++ [k₀], isRead w' c k)) ∧
    (∀ w c k, isRead w c k →
      (∀ v, (doSet w c k v).1 = .error (mkErr w (.alreadyRead k))) ∧
      (∀ fa, (doDef w c k fa).1 = .error (mkErr w (.alreadyRead k)))) ∧
    (∀ w c, (valStart w c).used = none ∧ (valStart w c).ctx = some c) ∧
    (∀ fuel c o ks w rr w', validate fuel c o ks w = some (rr, w') →
      w'.ctx = w.ctx ∧ (w.used = none → w'.used = none)) := by
  refine ⟨?_, ?_, ?_, ?_⟩
  · intro fuel c o ks w b w' hn h
    exact validate_reads fuel c o ks w b w' hn h
  · intro w c k hrd
    obtain ⟨e, he, hs⟩ := hrd
    constructor
    · intro v
      show (setEntryW w c k .hasValue v).1 = _
      rw [setEntryW_alreadyRead w c k .hasValue v e he hs]
    · intro fa
      show (setEntryW w c k .hasFactory (.fac fa)).1 = _
      rw [setEntryW_alreadyRead w c k .hasFactory (.fac fa) e he hs]
  · intro w c
    exact ⟨rfl, rfl⟩
  · intro fuel c o ks w rr w' h
    exact (ambPres fuel).2.2.2.2.2.2 c o ks w rr w' h

/-- Witness for C10: validating the inherited record of `w_share` resolves
dependency key 1 in the child context 2 even though validation succeeds and
the cached value is shared; afterwards `set`/`def` of key 1 in the child
raise `Already read`; the pass starts with no active log and none is active
after. -/
theorem validation_resolves_deps_witness :
    ∃ w', validate 4 2 1 [1] (valStart w_share 2) = some (.ok true, w') ∧
      isRead w' 2 1 ∧
      (∀ v, (doSet w' 2 1 v).1 = .error (mkErr w' (.alreadyRead 1))) ∧
      (valStart w_share 2).used = none ∧
      w'.used = none := by
  obtain ⟨hT, hF⟩ := validation_resolves_deps.1 4 2 1 [1] (valStart w_share 2) true _
    ⟨⟨some 1, oneKey 5 ⟨.hasValue, .val 99, some ⟨1, [1], .user 7 (.useG 1)⟩⟩⟩, 1, rfl, rfl⟩
    rfl
  have hrd : isRead _ 2 1 := hT rfl 1 (List.mem_singleton.2 rfl)
  refine ⟨_, rfl, hrd, (validation_resolves_deps.2.1 _ 2 1 hrd).1, rfl, ?_⟩
  exact ((validation_resolves_deps.2.2.2 4 2 1 [1] (valStart w_share 2) _ _ rfl).2) rfl

end ToUse
